import Mathlib

/-!
Shallow embedding of the product-quantization core of the `reductive`
repository (`src/pq.rs`), together with proofs about it.

Conventions of the embedding:
* `ndarray` 1-D arrays become `List α`, 2-D arrays become `List (List α)`
  (a list of rows); `Array2::cols` of a codebook becomes the length of its
  first row.
* the float scalar `A : NdFloat` becomes a type `α` with a
  `LinearOrderedAddCommGroup` / `LinearOrderedCommRing` structure (exact
  float rounding is out of scope; arithmetic is exact).  The float
  functions `A::ln` and `A::epsilon` used by the eigenvalue bucketer are
  passed as parameters `lnf` and `eps`.
* `assert!` failures and out-of-bounds panics become `Except PqError`
  errors; the error names follow the error taxonomy of the specification
  (`InvalidConfiguration`, `DimensionMismatch`, `InvalidCode`,
  `NumericalError`).
* code of the repository that lives outside `src/pq.rs`
  (`crate::kmeans`: `cluster_assignment`, `cluster_assignments`,
  `RandomInstanceCentroids`, `kmeans_with_centroids`) is modelled from
  the specification; each such definition carries a doc comment starting
  with `Modelled from the spec:`.
-/

namespace Reductive

/-- Failure modes of the quantizer core, following the error taxonomy of
the specification.  In `src/pq.rs` these are `assert!` panics and
out-of-bounds panics; the embedding turns them into error values. -/
inductive PqError where
  | invalidConfiguration
  | numericalError
  | dimensionMismatch
  | invalidCode
  | emptyQuantizers
  | sliceOutOfBounds
  deriving DecidableEq, Repr

/-- Embedding of Rust's `Iterator::min_by_key`: the first element of the
list whose key is minimal (when several elements are equally minimal the
first one is returned), `none` on the empty list. -/
def minByFirst {β : Type*} {γ : Type*} [LinearOrder γ] (key : β → γ) : List β → Option β
  | [] => none
  | x :: xs => some (xs.foldl (fun acc y => if key y < key acc then y else acc) x)

/-- Embedding of Rust's `Iterator::min_by_key` applied to the values
themselves (`src/pq.rs` line 433-437: the smallest shifted log-value). -/
def listMin {α : Type*} [LinearOrder α] (l : List α) : Option α :=
  minByFirst id l

/-- The ascending sort of the direction indices by eigenvalue
(`src/pq.rs` lines 416-418).  The Rust code uses an unstable sort with
the total `OrderedFloat` order; the embedding uses insertion sort, which
produces a sorted permutation as well. -/
def sortIndicesByValue {α : Type*} [LinearOrder α] [Zero α] (eigenvalues : List α) : List ℕ :=
  (List.range eigenvalues.length).insertionSort
    (fun l r => eigenvalues.getD l 0 ≤ eigenvalues.getD r 0)

/-- The bucket chosen for one eigen-direction (`src/pq.rs` lines
446-451): among the buckets currently holding fewer than
`max_assignments` members, the one with the smallest accumulated
product (log-sum); `min_by_key` keeps the first, i.e. lowest-index,
bucket on ties. -/
def chooseBucket {α : Type*} [LinearOrder α] [Zero α] (max_assignments : ℕ)
    (assignments : List (List ℕ)) (products : List α) : Option ℕ :=
  (minByFirst (fun p => products.getD p.1 0)
      (assignments.enum.filter fun p => p.2.length < max_assignments)).map Prod.fst

/-- The assignment loop of the eigenvalue bucketer (`src/pq.rs` lines
444-455).  The pending list is consumed from the front; the caller
passes the reversal of the ascending sort, matching `Vec::pop` taking
the largest remaining eigen-direction first.  `none` models the
`unwrap` panic when every bucket is full while directions remain. -/
def bucketLoop {α : Type*} [LinearOrder α] [Zero α] [Add α] (vals : ℕ → α)
    (max_assignments : ℕ) :
    List ℕ → List (List ℕ) → List α → Option (List (List ℕ))
  | [], assignments, _ => some assignments
  | i :: rest, assignments, products =>
    match chooseBucket max_assignments assignments products with
    | none => none
    | some idx =>
      bucketLoop vals max_assignments rest
        (assignments.set idx (assignments.getD idx [] ++ [i]))
        (products.set idx (products.getD idx 0 + vals i))

/-- Embedding of `bucket_eigenvalues` (`src/pq.rs` lines 397-458).
`lnf` and `eps` stand for the float functions `A::ln` and
`A::epsilon()` of the generic scalar `A : NdFloat`.  The three
`assert!`s on the configuration become `InvalidConfiguration`, the
non-negativity `assert!` becomes `NumericalError`.  The two `unwrap`s
(the minimum of a non-empty list and the existence of a non-full
bucket) are unreachable for inputs passing the checks; their `none`
branches are mapped to error values. -/
def bucket_eigenvalues {α : Type*} [LinearOrderedAddCommGroup α] (lnf : α → α) (eps : α)
    (eigenvalues : List α) (n_buckets : ℕ) : Except PqError (List (List ℕ)) :=
  if ¬ 0 < n_buckets then .error .invalidConfiguration
  else if ¬ n_buckets ≤ eigenvalues.length then .error .invalidConfiguration
  else if ¬ eigenvalues.length % n_buckets = 0 then .error .invalidConfiguration
  else
    let eigenvalue_indices := sortIndicesByValue eigenvalues
    if ¬ 0 ≤ eigenvalues.getD (eigenvalue_indices.headD 0) 0 then .error .numericalError
    else
      let logs := eigenvalues.map fun v => lnf (v + eps)
      match listMin logs with
      | none => .error .numericalError
      | some smallest =>
        let shifted := logs.map fun v => v - smallest
        let max_assignments := eigenvalues.length / n_buckets
        match bucketLoop (fun i => shifted.getD i 0) max_assignments
            eigenvalue_indices.reverse
            (List.replicate n_buckets ([] : List ℕ)) (List.replicate n_buckets (0 : α)) with
        | none => .error .invalidConfiguration
        | some assignments => .ok assignments

instance {ε : Type*} {σ : Type*} [DecidableEq ε] [DecidableEq σ] : DecidableEq (Except ε σ) :=
  fun a b =>
    match a, b with
    | .ok x, .ok y =>
      if h : x = y then isTrue (congrArg Except.ok h)
      else isFalse fun hc => h (Except.ok.inj hc)
    | .error x, .error y =>
      if h : x = y then isTrue (congrArg Except.error h)
      else isFalse fun hc => h (Except.error.inj hc)
    | .ok _, .error _ => isFalse fun hc => Except.noConfusion hc
    | .error _, .ok _ => isFalse fun hc => Except.noConfusion hc

/-- The product quantizer model (`struct PQ` in `src/pq.rs` lines 198-201):
the trained vector length and the `M` codebooks, each a list of centroid
rows. -/
structure PQmodel (α : Type*) where
  quantizer_len : ℕ
  quantizers : List (List (List α))
  deriving DecidableEq

/-- Number of columns of a row-list matrix (`Array2::cols`); in `ndarray`
every row of a 2-D array has exactly this length. -/
def cols {α : Type*} (m : List (List α)) : ℕ := (m.headD []).length

/-- The shape invariants of a trained model (spec §3): at least one
subquantizer, every codebook has `2 ^ bits` rows, every centroid row has
the slice width `d`, and the stored vector length is the total width. -/
def PQmodel.WellFormed {α : Type*} (bits d : ℕ) (pq : PQmodel α) : Prop :=
  pq.quantizers ≠ [] ∧
  (∀ q ∈ pq.quantizers, q.length = 2 ^ bits ∧ ∀ r ∈ q, r.length = d) ∧
  pq.quantizer_len = pq.quantizers.length * d

instance {α : Type*} [DecidableEq α] (bits d : ℕ) (pq : PQmodel α) :
    Decidable (pq.WellFormed bits d) := by
  unfold PQmodel.WellFormed
  infer_instance

/-- Squared Euclidean distance between two equal-length vectors; its argmin
coincides with the argmin of the Euclidean distance used by the spec's
nearest-centroid assignment. -/
def sqDist {α : Type*} [Ring α] (y x : List α) : α :=
  (List.zipWith (fun a b => (a - b) * (a - b)) y x).sum

/-- Modelled from the spec: `crate::kmeans::cluster_assignment` (the K-Means
Service's `assign_nearest` for one vector) is outside `src/pq.rs`; per the
spec it returns the index of the nearest centroid by Euclidean distance,
ties broken by lowest centroid index.  Empty centroid sets do not occur in
the quantizer (codebooks have `2 ^ bits` rows); for them the embedding
returns 0. -/
def cluster_assignment {α : Type*} [LinearOrderedRing α] (centroids : List (List α))
    (x : List α) : ℕ :=
  match minByFirst (fun p => sqDist p.2 x) centroids.enum with
  | some p => p.1
  | none => 0

/-- Modelled from the spec: `crate::kmeans::cluster_assignments` (batched
`assign_nearest`) is outside `src/pq.rs`; per the spec the batched form is
the row-wise application of the single-vector assignment. -/
def cluster_assignments {α : Type*} [LinearOrderedRing α] (centroids : List (List α))
    (xs : List (List α)) : List ℕ :=
  xs.map (cluster_assignment centroids)

/-- The per-subquantizer loop of `quantize` (`src/pq.rs` lines 531-539):
walk the quantizers, slicing `x` at the accumulated offset; a slice
reaching beyond the end of `x` models the `ndarray` out-of-bounds panic. -/
def quantizeLoop {α : Type*} [LinearOrderedRing α] :
    List (List (List α)) → List α → Except PqError (List ℕ)
  | [], _ => .ok []
  | q :: qs, x =>
    if ¬ cols q ≤ x.length then .error .sliceOutOfBounds
    else
      match quantizeLoop qs (x.drop (cols q)) with
      | .error e => .error e
      | .ok rest => .ok (cluster_assignment q (x.take (cols q)) :: rest)

/-- Embedding of `quantize` (`src/pq.rs` lines 516-542): the `assert_eq!`
on the vector length becomes `DimensionMismatch`. -/
def quantize {α : Type*} [LinearOrderedRing α] (quantizers : List (List (List α)))
    (quantizer_len : ℕ) (x : List α) : Except PqError (List ℕ) :=
  if ¬ quantizer_len = x.length then .error .dimensionMismatch
  else quantizeLoop quantizers x

/-- The per-subquantizer loop of `quantize_batch` (`src/pq.rs` lines
559-568): the result matrix is assembled one column per subquantizer from
the batched assignments on the column slice; `ncols` tracks the width of
the remaining slice of the input matrix. -/
def quantizeBatchLoop {α : Type*} [LinearOrderedRing α] :
    List (List (List α)) → List (List α) → ℕ → Except PqError (List (List ℕ))
  | [], xs, _ => .ok (xs.map fun _ => [])
  | q :: qs, xs, ncols =>
    if ¬ cols q ≤ ncols then .error .sliceOutOfBounds
    else
      match quantizeBatchLoop qs (xs.map (List.drop (cols q))) (ncols - cols q) with
      | .error e => .error e
      | .ok rest => .ok (List.zipWith (fun c r => c :: r)
          (cluster_assignments q (xs.map (List.take (cols q)))) rest)

/-- Embedding of `quantize_batch` (`src/pq.rs` lines 544-571); `ncols` is
the column count of the input matrix `xs` (every row of an `ndarray`
matrix has this length). -/
def quantize_batch {α : Type*} [LinearOrderedRing α] (quantizers : List (List (List α)))
    (quantizer_len : ℕ) (xs : List (List α)) (ncols : ℕ) : Except PqError (List (List ℕ)) :=
  if ¬ quantizer_len = ncols then .error .dimensionMismatch
  else quantizeBatchLoop quantizers xs ncols

/-- Writing `piece` into `buf` at offset `off` (`slice_mut` followed by
`assign` in `src/pq.rs` lines 588-589); a slice reaching beyond the buffer
models the `ndarray` slicing panic. -/
def setSlice {α : Type*} (buf : List α) (off : ℕ) (piece : List α) : Except PqError (List α) :=
  if off + piece.length ≤ buf.length then
    .ok (buf.take off ++ piece ++ buf.drop (off + piece.length))
  else .error .sliceOutOfBounds

/-- The row-writing loop of `reconstruct` (`src/pq.rs` lines 587-591): the
code entries are zipped with the quantizers; `index_axis` on a row index
at or beyond the codebook's row count panics, which the spec's error
taxonomy names `InvalidCode`. -/
def reconstructLoop {α : Type*} [Zero α] :
    List ℕ → List (List (List α)) → ℕ → List α → Except PqError (List α)
  | [], _, _, buf => .ok buf
  | _ :: _, [], _, buf => .ok buf
  | c :: cs, q :: qs, off, buf =>
    if ¬ c < q.length then .error .invalidCode
    else
      match setSlice buf off (q.getD c []) with
      | .error e => .error e
      | .ok buf2 => reconstructLoop cs qs (off + cols q) buf2

/-- Embedding of `reconstruct` (`src/pq.rs` lines 573-594): the
`assert_eq!` on the code length becomes `DimensionMismatch`; indexing
`quantizers[0]` for the output size panics on an empty quantizer list
(`EmptyQuantizers`). -/
def reconstruct {α : Type*} [Zero α] (quantizers : List (List (List α)))
    (quantized : List ℕ) : Except PqError (List α) :=
  if ¬ quantizers.length = quantized.length then .error .dimensionMismatch
  else
    match quantizers with
    | [] => .error .emptyQuantizers
    | q0 :: _ => reconstructLoop quantized quantizers 0
        (List.replicate (quantizers.length * cols q0) 0)

/-- Sequential fallible row loop; the first failing row aborts, matching a
panic inside a row-by-row loop. -/
def mapExcept {β : Type*} {γ : Type*} {ε : Type*} (f : β → Except ε γ) :
    List β → Except ε (List γ)
  | [] => .ok []
  | x :: xs =>
    match f x with
    | .error e => .error e
    | .ok y =>
      match mapExcept f xs with
      | .error e => .error e
      | .ok ys => .ok (y :: ys)

/-- Embedding of `reconstruct_batch` (`src/pq.rs` lines 596-617): after the
column-count `assert_eq!` (`DimensionMismatch`) and the `quantizers[0]`
indexing for the output width (`EmptyQuantizers`), each row is
reconstructed by `reconstruct`; `ncols` is the column count of the code
matrix. -/
def reconstruct_batch {α : Type*} [Zero α] (quantizers : List (List (List α)))
    (quantized : List (List ℕ)) (ncols : ℕ) : Except PqError (List (List α)) :=
  if ¬ quantizers.length = ncols then .error .dimensionMismatch
  else
    match quantizers with
    | [] => .error .emptyQuantizers
    | _ :: _ => mapExcept (reconstruct quantizers) quantized

/-- Embedding of `PQ::train_subquantizer`'s attempt selection (`src/pq.rs`
lines 321-351).  The K-Means Service (`kmeans_with_centroids`,
`crate::kmeans`) is outside `src/pq.rs`; following the spec, `trial a` is
the (loss, codebook) pair produced by the k-means run of attempt `a`.  In
`src/pq.rs` every attempt clones the same initial centroids, so a
deterministic service makes all trials equal; the stream form covers that
case.  The `assert!` on a zero attempt count becomes
`InvalidConfiguration`; the `unwrap` of the minimum is unreachable for a
positive attempt count. -/
def train_subquantizer {γ : Type*} {β : Type*} [LinearOrder γ] (trial : ℕ → γ × β)
    (n_attempts : ℕ) : Except PqError β :=
  if ¬ 0 < n_attempts then .error .invalidConfiguration
  else
    match minByFirst Prod.fst ((List.range n_attempts).map trial) with
    | some p => .ok p.2
    | none => .error .invalidConfiguration

/-- Embedding of `PQ::check_quantizer_invariants` (`src/pq.rs` lines
286-314); each `assert!`, in source order, maps to `InvalidConfiguration`
(spec §7).  `ncols` is the column count of the instance matrix. -/
def check_quantizer_invariants (n_subquantizers n_subquantizer_bits n_iterations
    n_attempts ncols : ℕ) : Except PqError Unit :=
  if ¬ (0 < n_subquantizers ∧ n_subquantizers ≤ ncols) then .error .invalidConfiguration
  else if ¬ 0 < n_subquantizer_bits then .error .invalidConfiguration
  else if ¬ ncols % n_subquantizers = 0 then .error .invalidConfiguration
  else if ¬ 0 < n_iterations then .error .invalidConfiguration
  else if ¬ 0 < n_attempts then .error .invalidConfiguration
  else .ok ()

/-- Embedding of `initial_centroids` (`src/pq.rs` lines 492-514).  The
Initial Centroid Selector (`RandomInstanceCentroids`, `crate::kmeans`) is
outside `src/pq.rs`; it is modelled from the spec as a function `select`
drawing `codebook_len` centroids from an instance slice while advancing
the RNG state `ρ`.  The slices are visited sequentially in
subquantizer-index order, threading the single RNG state. -/
def initial_centroids {α : Type*} {ρ : Type*}
    (select : List (List α) → ℕ → ρ → List (List α) × ρ)
    (n_subquantizers codebook_len : ℕ) (instances : List (List α)) (ncols : ℕ) (rng : ρ) :
    List (List (List α)) × ρ :=
  (List.range n_subquantizers).foldl
    (fun acc sq =>
      let p := select
        (instances.map fun r => (r.drop (sq * (ncols / n_subquantizers))).take
          (ncols / n_subquantizers))
        codebook_len acc.2
      (acc.1 ++ [p.1], p.2))
    ([], rng)

/-- Modelled from the spec (§5): the rayon
`into_par_iter().enumerate().map(..).collect()` fan-out is an
index-addressed arena of `n` slots written by the per-subquantizer jobs in
an arbitrary execution order (the `schedule`). -/
def parCollect {β : Type*} (f : ℕ → β) (n : ℕ) (dflt : β) (schedule : List ℕ) : List β :=
  schedule.foldl (fun arena i => arena.set i (f i)) (List.replicate n dflt)

/-- Embedding of `PQ::train_using` (`src/pq.rs` lines 246-284): check the
configuration invariants, draw all initial centroid sets sequentially from
the single RNG, then train the subquantizers (in parallel, modelled by
`parCollect` over an arbitrary schedule) and collect the codebooks by
subquantizer index.  `kmeansRun` models one external k-means run
(`kmeans_with_centroids` for `n_iterations` rounds) on an instance slice
and initial centroids; a panicking job aborts the whole training. -/
def train_using {α : Type*} {ρ : Type*} [LinearOrderedRing α]
    (select : List (List α) → ℕ → ρ → List (List α) × ρ)
    (kmeansRun : List (List α) → List (List α) → α × List (List α))
    (n_subquantizers n_subquantizer_bits n_iterations n_attempts : ℕ)
    (instances : List (List α)) (ncols : ℕ) (rng : ρ) (schedule : List ℕ) :
    Except PqError (PQmodel α) :=
  match check_quantizer_invariants n_subquantizers n_subquantizer_bits n_iterations
      n_attempts ncols with
  | .error e => .error e
  | .ok _ =>
    match mapExcept (fun r => r)
        (parCollect
          (fun idx =>
            let quantizer := ((initial_centroids select n_subquantizers
              (2 ^ n_subquantizer_bits) instances ncols rng).1).getD idx []
            train_subquantizer
              (fun _ => kmeansRun
                (instances.map fun r => (r.drop (idx * cols quantizer)).take (cols quantizer))
                quantizer)
              n_attempts)
          n_subquantizers (.error .invalidConfiguration) schedule) with
    | .error e => .error e
    | .ok quantizers => .ok { quantizer_len := ncols, quantizers := quantizers }

theorem minByFirst_eq_some {β : Type*} {γ : Type*} [LinearOrder γ] (key : β → γ) :
    ∀ (l : List β) (m : β), minByFirst key l = some m →
      ∃ s t, l = s ++ m :: t ∧ (∀ y ∈ s, key m < key y) ∧ ∀ y ∈ t, key m ≤ key y := by
  have aux : ∀ (xs : List β) (x : β),
      ∃ s t, x :: xs = s ++ (xs.foldl (fun acc y => if key y < key acc then y else acc) x) :: t ∧
        (∀ y ∈ s, key (xs.foldl (fun acc y => if key y < key acc then y else acc) x) < key y) ∧
        ∀ y ∈ t, key (xs.foldl (fun acc y => if key y < key acc then y else acc) x) ≤ key y := by
    intro xs
    induction xs with
    | nil =>
        intro x
        exact ⟨[], [], rfl, by simp, by simp⟩
    | cons y ys ih =>
        intro x
        by_cases hlt : key y < key x
        · obtain ⟨s, t, hsplit, hs, ht⟩ := ih y
          have hstep : (y :: ys).foldl (fun acc z => if key z < key acc then z else acc) x =
              ys.foldl (fun acc z => if key z < key acc then z else acc) y := by
            simp [List.foldl_cons, if_pos hlt]
          set m := ys.foldl (fun acc z => if key z < key acc then z else acc) y with hm
          have hmy : key m ≤ key y := by
            rcases s with _ | ⟨z, s1⟩
            · have : y = m := by simpa using congrArg (fun l => l.headD y) hsplit
              exact le_of_eq (congrArg key this.symm)
            · have hy : y = z := by simpa using congrArg (fun l => l.headD y) hsplit
              have : key m < key z := hs z (by simp)
              exact le_of_lt (hy ▸ this)
          refine ⟨x :: s, t, ?_, ?_, ?_⟩
          · rw [hstep]
            simpa using hsplit
          · intro w hw
            rw [hstep]
            rcases List.mem_cons.mp hw with hwx | hws
            · exact hwx ▸ lt_of_le_of_lt hmy hlt
            · exact hs w hws
          · intro w hw
            rw [hstep]
            exact ht w hw
        · obtain ⟨s, t, hsplit, hs, ht⟩ := ih x
          have hstep : (y :: ys).foldl (fun acc z => if key z < key acc then z else acc) x =
              ys.foldl (fun acc z => if key z < key acc then z else acc) x := by
            simp [List.foldl_cons, if_neg hlt]
          set m := ys.foldl (fun acc z => if key z < key acc then z else acc) x with hm
          have hxy : key x ≤ key y := not_lt.mp hlt
          rcases s with _ | ⟨z, s1⟩
          · have hmx : m = x := by simpa using (congrArg (fun l => l.headD x) hsplit).symm
            have htys : t = ys := by simpa using (congrArg (fun l => l.tail) hsplit).symm
            refine ⟨[], y :: t, ?_, by simp, ?_⟩
            · rw [hstep, hmx, htys]
              rfl
            · intro w hw
              rw [hstep]
              rcases List.mem_cons.mp hw with hwy | hwt
              · exact hwy ▸ (hmx ▸ hxy)
              · exact ht w hwt
          · have hxz : x = z := by simpa using congrArg (fun l => l.headD x) hsplit
            have hys : ys = s1 ++ m :: t := by simpa using congrArg (fun l => l.tail) hsplit
            have hmx : key m < key x := hs z (by simp) |>.trans_le (le_of_eq (congrArg key hxz.symm))
            refine ⟨x :: y :: s1, t, ?_, ?_, ?_⟩
            · rw [hstep]
              simp [hys]
            · intro w hw
              rw [hstep]
              rcases List.mem_cons.mp hw with hwx | hw2
              · exact hwx ▸ hmx
              · rcases List.mem_cons.mp hw2 with hwy | hws
                · exact hwy ▸ lt_of_lt_of_le hmx hxy
                · exact hs w (by simp [hws])
            · intro w hw
              rw [hstep]
              exact ht w hw
  intro l m h
  match l with
  | [] => exact absurd h (by simp [minByFirst])
  | x :: xs =>
      have hfold : xs.foldl (fun acc y => if key y < key acc then y else acc) x = m := by
        simpa [minByFirst] using h
      obtain ⟨s, t, hsplit, hs, ht⟩ := aux xs x
      exact ⟨s, t, hfold ▸ hsplit, hfold ▸ hs, hfold ▸ ht⟩

theorem minByFirst_mem {β : Type*} {γ : Type*} [LinearOrder γ] (key : β → γ) (l : List β) (m : β)
    (h : minByFirst key l = some m) : m ∈ l := by
  obtain ⟨s, t, hsplit, -, -⟩ := minByFirst_eq_some key l m h
  simp [hsplit]

theorem minByFirst_le {β : Type*} {γ : Type*} [LinearOrder γ] (key : β → γ) (l : List β) (m : β)
    (h : minByFirst key l = some m) : ∀ y ∈ l, key m ≤ key y := by
  obtain ⟨s, t, hsplit, hs, ht⟩ := minByFirst_eq_some key l m h
  intro y hy
  rw [hsplit] at hy
  rcases List.mem_append.mp hy with hys | hyt
  · exact le_of_lt (hs y hys)
  · rcases List.mem_cons.mp hyt with hym | hyt
    · exact le_of_eq (congrArg key hym.symm)
    · exact ht y hyt

theorem minByFirst_isSome {β : Type*} {γ : Type*} [LinearOrder γ] (key : β → γ) (l : List β)
    (h : l ≠ []) : ∃ m, minByFirst key l = some m := by
  match l with
  | [] => exact absurd rfl h
  | x :: xs => exact ⟨_, rfl⟩

theorem listMin_isSome {α : Type*} [LinearOrder α] (l : List α) (h : l ≠ []) :
    ∃ m, listMin l = some m := minByFirst_isSome id l h

theorem listMin_mem {α : Type*} [LinearOrder α] (l : List α) (m : α) (h : listMin l = some m) :
    m ∈ l := minByFirst_mem id l m h

theorem listMin_le {α : Type*} [LinearOrder α] (l : List α) (m : α) (h : listMin l = some m) :
    ∀ y ∈ l, m ≤ y := minByFirst_le id l m h

theorem enumFrom_pairwise_fst {β : Type*} :
    ∀ (n : ℕ) (l : List β), (l.enumFrom n).Pairwise fun p q => p.1 < q.1 := by
  intro n l
  induction l generalizing n with
  | nil => simp
  | cons x xs ih =>
      rw [List.enumFrom_cons]
      refine List.Pairwise.cons ?_ (ih (n + 1))
      intro p hp
      have hfst : p.1 ∈ (xs.enumFrom (n + 1)).map Prod.fst := List.mem_map_of_mem Prod.fst hp
      rw [List.enumFrom_map_fst] at hfst
      have := (List.mem_range'_1.mp hfst).1
      omega

theorem enum_pairwise_fst {β : Type*} (l : List β) :
    l.enum.Pairwise fun p q => p.1 < q.1 :=
  enumFrom_pairwise_fst 0 l

theorem getD_eq_of_lt {β : Type*} (l : List β) (d : β) (i : ℕ) (h : i < l.length) :
    l.getD i d = l[i] := by
  rw [List.getD_eq_getElem?_getD, List.getElem?_eq_getElem h]
  rfl

theorem mem_enum_of_lt {β : Type*} (l : List β) (d : β) (j : ℕ) (h : j < l.length) :
    (j, l.getD j d) ∈ l.enum := by
  rw [List.mem_enum_iff_getElem?, getD_eq_of_lt l d j h]
  exact List.getElem?_eq_getElem h

theorem chooseBucket_spec {α : Type*} [LinearOrderedAddCommGroup α] (q : ℕ)
    (L : List (List ℕ)) (P : List α) (idx : ℕ) (h : chooseBucket q L P = some idx) :
    idx < L.length ∧ (L.getD idx []).length < q ∧
    (∀ j, j < L.length → (L.getD j []).length < q → P.getD idx 0 ≤ P.getD j 0) ∧
    ∀ j, j < idx → (L.getD j []).length < q → P.getD idx 0 < P.getD j 0 := by
  unfold chooseBucket at h
  set flt := L.enum.filter (fun p => p.2.length < q) with hflt
  obtain ⟨m, hm, hmfst⟩ := Option.map_eq_some'.mp h
  have hmem : m ∈ flt := minByFirst_mem _ flt m hm
  have hmenum : m ∈ L.enum := List.mem_of_mem_filter hmem
  have hmfull : m.2.length < q := by
    have := List.of_mem_filter hmem
    simpa using this
  have hmget : L[m.1]? = some m.2 := List.mem_enum_iff_getElem?.mp hmenum
  have hmlt : m.1 < L.length := by
    by_contra hcon
    rw [List.getElem?_eq_none (le_of_not_lt hcon)] at hmget
    exact Option.noConfusion hmget
  have hmgetD : L.getD m.1 [] = m.2 := by
    rw [getD_eq_of_lt L [] m.1 hmlt]
    have := List.getElem?_eq_getElem hmlt
    rw [this] at hmget
    exact Option.some.inj hmget
  have hmemflt : ∀ j, j < L.length → (L.getD j []).length < q → (j, L.getD j []) ∈ flt := by
    intro j hj hjq
    rw [hflt]
    refine List.mem_filter.mpr ⟨mem_enum_of_lt L [] j hj, by simpa using hjq⟩
  subst hmfst
  refine ⟨hmlt, hmgetD ▸ hmfull, ?_, ?_⟩
  · intro j hj hjq
    have := minByFirst_le _ flt m hm (j, L.getD j []) (hmemflt j hj hjq)
    simpa [hmgetD] using this
  · intro j hj hjq
    obtain ⟨s, t, hsplit, hs, ht⟩ := minByFirst_eq_some _ flt m hm
    have hpw : flt.Pairwise fun p q : ℕ × List ℕ => p.1 < q.1 := by
      rw [hflt]
      exact (enum_pairwise_fst L).sublist (List.filter_sublist L.enum)
    have hmemj : (j, L.getD j []) ∈ flt := hmemflt j (lt_trans hj hmlt) hjq
    rw [hsplit] at hmemj hpw
    have hins : (j, L.getD j []) ∈ s := by
      rcases List.mem_append.mp hmemj with hjs | hjt
      · exact hjs
      · rcases List.mem_cons.mp hjt with hje | hjt
        · exfalso
          have : j = m.1 := congrArg Prod.fst hje
          omega
        · exfalso
          have := ((List.pairwise_append.mp hpw).2.1)
          have hlt2 : m.1 < j := (List.pairwise_cons.mp this).1 (j, L.getD j []) hjt
          omega
    have := hs (j, L.getD j []) hins
    simpa [hmgetD] using this

theorem chooseBucket_isSome {α : Type*} [LinearOrderedAddCommGroup α] (q : ℕ)
    (L : List (List ℕ)) (P : List α)
    (h : ∃ j, j < L.length ∧ (L.getD j []).length < q) :
    ∃ idx, chooseBucket q L P = some idx := by
  obtain ⟨j, hj, hjq⟩ := h
  have hmem : (j, L.getD j []) ∈ L.enum.filter (fun p => p.2.length < q) :=
    List.mem_filter.mpr ⟨mem_enum_of_lt L [] j hj, by simpa using hjq⟩
  obtain ⟨m, hm⟩ := minByFirst_isSome (fun p : ℕ × List ℕ => P.getD p.1 0) _
    (List.ne_nil_of_mem hmem)
  refine ⟨m.1, ?_⟩
  unfold chooseBucket
  rw [hm]
  rfl

theorem all_eq_of_sum_eq (q : ℕ) :
    ∀ (l : List ℕ), (∀ x ∈ l, x ≤ q) → l.sum = l.length * q → ∀ x ∈ l, x = q := by
  intro l
  induction l with
  | nil => simp
  | cons a l ih =>
      intro hb hsum x hx
      have hlsum : l.sum ≤ l.length * q := by
        have := List.sum_le_card_nsmul l q fun y hy => hb y (List.mem_cons_of_mem a hy)
        simpa [smul_eq_mul] using this
      have ha : a ≤ q := hb a (List.mem_cons_self a l)
      have hsum2 : a + l.sum = l.length * q + q := by
        have : (a :: l).sum = a + l.sum := List.sum_cons
        rw [this] at hsum
        rw [hsum, List.length_cons]
        ring
      have haq : a = q := by omega
      rcases List.mem_cons.mp hx with hxa | hxl
      · omega
      · exact ih (fun y hy => hb y (List.mem_cons_of_mem a hy)) (by omega) x hxl

theorem flatten_set_append_perm {β : Type*} :
    ∀ (L : List (List β)) (i : ℕ) (x : β), i < L.length →
      ((L.set i ((L.getD i []) ++ [x])).flatten).Perm (L.flatten ++ [x]) := by
  intro L
  induction L with
  | nil => intro i x h; simp at h
  | cons b L ih =>
      intro i x _h
      cases i with
      | zero =>
          simp only [List.set_cons_zero, List.getD_cons_zero, List.flatten_cons]
          rw [List.append_assoc, List.append_assoc]
          exact List.Perm.append_left b (List.perm_append_comm)
      | succ i =>
          simp only [List.set_cons_succ, List.getD_cons_succ, List.flatten_cons]
          rw [List.append_assoc]
          refine List.Perm.append_left b ?_
          have hi : i < L.length := by simpa using _h
          exact ih i x hi

theorem exists_nonfull (q : ℕ) (L : List (List ℕ))
    (hle : ∀ b ∈ L, b.length ≤ q) (hlt : L.flatten.length < L.length * q) :
    ∃ j, j < L.length ∧ (L.getD j []).length < q := by
  by_contra hcon
  push_neg at hcon
  have hall : ∀ b ∈ L, b.length = q := by
    intro b hb
    obtain ⟨j, hj, hbj⟩ := List.mem_iff_getElem.mp hb
    have h1 := hcon j hj
    rw [getD_eq_of_lt L [] j hj, hbj] at h1
    exact le_antisymm (hle b hb) h1
  have hsum : L.flatten.length = L.length * q := by
    rw [List.length_flatten]
    have : ∀ y ∈ L.map List.length, y = q := by
      intro y hy
      obtain ⟨b, hb, hby⟩ := List.mem_map.mp hy
      rw [← hby]
      exact hall b hb
    have := List.sum_eq_card_nsmul (L.map List.length) q this
    simpa [smul_eq_mul] using this
  omega

theorem bucketLoop_partition {α : Type*} [LinearOrderedAddCommGroup α] (vals : ℕ → α) (q : ℕ) :
    ∀ (pending : List ℕ) (L : List (List ℕ)) (P : List α),
      P.length = L.length →
      (∀ b ∈ L, b.length ≤ q) →
      L.flatten.length + pending.length = L.length * q →
      ∃ out, bucketLoop vals q pending L P = some out ∧
        out.length = L.length ∧ (∀ b ∈ out, b.length = q) ∧
        out.flatten.Perm (L.flatten ++ pending) := by
  intro pending
  induction pending with
  | nil =>
      intro L P _hP hle hsum
      refine ⟨L, rfl, rfl, ?_, by simp⟩
      intro b hb
      have hmap : ∀ y ∈ L.map List.length, y ≤ q := by
        intro y hy
        obtain ⟨c, hc, hcy⟩ := List.mem_map.mp hy
        exact hcy ▸ hle c hc
      have hsum2 : (L.map List.length).sum = (L.map List.length).length * q := by
        rw [← List.length_flatten]
        simpa using hsum
      exact all_eq_of_sum_eq q (L.map List.length) hmap hsum2 b.length
        (List.mem_map_of_mem List.length hb)
  | cons i rest ih =>
      intro L P hP hle hsum
      have hflt : L.flatten.length < L.length * q := by
        simp only [List.length_cons] at hsum
        omega
      obtain ⟨idx, hidx⟩ := chooseBucket_isSome q L P (exists_nonfull q L hle hflt)
      obtain ⟨hilt, hblt, -, -⟩ := chooseBucket_spec q L P idx hidx
      have hperm2 : ((L.set idx ((L.getD idx []) ++ [i])).flatten).Perm (L.flatten ++ [i]) :=
        flatten_set_append_perm L idx i hilt
      have hlen2 : (L.set idx ((L.getD idx []) ++ [i])).length = L.length := L.length_set idx _
      have hP2 : (P.set idx (P.getD idx 0 + vals i)).length =
          (L.set idx ((L.getD idx []) ++ [i])).length := by
        rw [hlen2, List.length_set, hP]
      have hle2 : ∀ b ∈ L.set idx ((L.getD idx []) ++ [i]), b.length ≤ q := by
        intro b hb
        rcases List.mem_or_eq_of_mem_set hb with hbL | hbe
        · exact hle b hbL
        · rw [hbe, List.length_append, List.length_singleton]
          omega
      have hsum2 : ((L.set idx ((L.getD idx []) ++ [i])).flatten).length + rest.length =
          (L.set idx ((L.getD idx []) ++ [i])).length * q := by
        rw [hperm2.length_eq, hlen2, List.length_append, List.length_singleton]
        simp only [List.length_cons] at hsum
        omega
      obtain ⟨out, hloop, hlen, hall, hperm⟩ :=
        ih (L.set idx ((L.getD idx []) ++ [i])) (P.set idx (P.getD idx 0 + vals i)) hP2 hle2 hsum2
      refine ⟨out, ?_, ?_, hall, ?_⟩
      · simp only [bucketLoop, hidx]
        exact hloop
      · rw [hlen, hlen2]
      · refine hperm.trans ?_
        have h1 : ((L.set idx ((L.getD idx []) ++ [i])).flatten ++ rest).Perm
            ((L.flatten ++ [i]) ++ rest) := hperm2.append_right rest
        refine h1.trans ?_
        rw [List.append_assoc, List.singleton_append]

theorem bucket_eigenvalues_ok {α : Type*} [LinearOrderedAddCommGroup α] (lnf : α → α)
    (eps : α) (ev : List α) (M : ℕ) (hM : 0 < M) (hMD : M ≤ ev.length)
    (hdvd : ev.length % M = 0) (hpos : ∀ x ∈ ev, 0 ≤ x) :
    ∃ bs, bucket_eigenvalues lnf eps ev M = .ok bs ∧
      bs.length = M ∧ (∀ b ∈ bs, b.length = ev.length / M) ∧
      bs.flatten.Perm (List.range ev.length) := by
  have hperm : (sortIndicesByValue ev).Perm (List.range ev.length) :=
    List.perm_insertionSort _ _
  have hlen : (sortIndicesByValue ev).length = ev.length := by
    rw [hperm.length_eq, List.length_range]
  have hne : sortIndicesByValue ev ≠ [] := by
    intro hcon
    rw [hcon] at hlen
    simp at hlen
    omega
  have hhead : (sortIndicesByValue ev).headD 0 ∈ sortIndicesByValue ev := by
    cases hs : sortIndicesByValue ev with
    | nil => exact absurd hs hne
    | cons a l => simp
  have hheadlt : (sortIndicesByValue ev).headD 0 < ev.length := by
    have := hperm.mem_iff.mp hhead
    exact List.mem_range.mp this
  have hnn : 0 ≤ ev.getD ((sortIndicesByValue ev).headD 0) 0 := by
    rw [getD_eq_of_lt ev 0 _ hheadlt]
    exact hpos _ (List.getElem_mem hheadlt)
  have hevne : ev ≠ [] := by
    intro hcon
    rw [hcon] at hMD
    simp at hMD
    omega
  obtain ⟨smallest, hsm⟩ := listMin_isSome (ev.map fun v => lnf (v + eps))
    (by simpa using hevne)
  have hloop := bucketLoop_partition
    (fun i => ((ev.map fun v => lnf (v + eps)).map fun v => v - smallest).getD i 0)
    (ev.length / M) (sortIndicesByValue ev).reverse
    (List.replicate M ([] : List ℕ)) (List.replicate M (0 : α))
    (by simp) (by intro b hb; rw [List.eq_of_mem_replicate hb]; simp)
    (by
      have hfl : (List.replicate M ([] : List ℕ)).flatten = [] := by
        rw [List.flatten_eq_nil_iff]
        intro l hl
        exact List.eq_of_mem_replicate hl
      rw [hfl, List.length_reverse, hlen, List.length_replicate]
      simp only [List.length_nil]
      rw [Nat.zero_add, Nat.mul_div_cancel' (Nat.dvd_of_mod_eq_zero hdvd)]
      )
  obtain ⟨out, hout, houtlen, houtall, houtperm⟩ := hloop
  refine ⟨out, ?_, ?_, houtall, ?_⟩
  · have c1 : (¬ 0 < M) = False := eq_false (not_not_intro hM)
    have c2 : (¬ M ≤ ev.length) = False := eq_false (not_not_intro hMD)
    have c3 : (¬ ev.length % M = 0) = False := eq_false (not_not_intro hdvd)
    have c4 : (¬ 0 ≤ ev.getD ((sortIndicesByValue ev).headD 0) 0) = False :=
      eq_false (not_not_intro hnn)
    simp only [bucket_eigenvalues, c1, c2, c3, c4, if_false, hsm, hout]
  · rw [houtlen, List.length_replicate]
  · refine houtperm.trans ?_
    have hfl : (List.replicate M ([] : List ℕ)).flatten = [] := by
      rw [List.flatten_eq_nil_iff]
      intro l hl
      exact List.eq_of_mem_replicate hl
    rw [hfl, List.nil_append]
    exact (List.reverse_perm _).trans hperm

/-- C1: for every eigenvalue list with all entries non-negative and every
bucket count `M` with `0 < M`, `M ≤ D` and `D % M = 0` (`D` the number of
eigenvalues), `bucket_eigenvalues` succeeds and returns exactly `M`
buckets that are pairwise disjoint, each containing exactly `D / M`
direction indices, and whose union is exactly the index set
`{0, …, D - 1}`. -/
theorem bucket_eigenvalues_partition {α : Type*} [LinearOrderedAddCommGroup α]
    (lnf : α → α) (eps : α) (ev : List α) (M : ℕ) (hM : 0 < M) (hMD : M ≤ ev.length)
    (hdvd : ev.length % M = 0) (hpos : ∀ x ∈ ev, 0 ≤ x) :
    ∃ bs, bucket_eigenvalues lnf eps ev M = .ok bs ∧
      bs.length = M ∧ (∀ b ∈ bs, b.length = ev.length / M) ∧
      bs.Pairwise List.Disjoint ∧
      ∀ i, i ∈ bs.flatten ↔ i < ev.length := by
  obtain ⟨bs, hok, hlen, hall, hperm⟩ := bucket_eigenvalues_ok lnf eps ev M hM hMD hdvd hpos
  refine ⟨bs, hok, hlen, hall, ?_, ?_⟩
  · have hnd : bs.flatten.Nodup := hperm.nodup_iff.mpr (List.nodup_range _)
    exact (List.nodup_flatten.mp hnd).2
  · intro i
    rw [hperm.mem_iff, List.mem_range]

theorem bucket_eigenvalues_partition_witness :
    (∀ x ∈ [(0 : ℤ), 1, 2, 3], 0 ≤ x) ∧
    ∃ bs, bucket_eigenvalues id 0 [(0 : ℤ), 1, 2, 3] 2 = .ok bs ∧
      bs.length = 2 ∧ (∀ b ∈ bs, b.length = [(0 : ℤ), 1, 2, 3].length / 2) ∧
      bs.Pairwise List.Disjoint ∧
      ∀ i, i ∈ bs.flatten ↔ i < [(0 : ℤ), 1, 2, 3].length :=
  ⟨by decide, bucket_eigenvalues_partition id 0 [(0 : ℤ), 1, 2, 3] 2
    (by decide) (by decide) (by decide) (by decide)⟩

/-- C3: the bucketer's assignment loop satisfies the greedy policy.  First
conjunct: each loop step appends the popped direction to `chooseBucket`'s
bucket and adds its shifted log-value to that bucket's sum.  Second
conjunct: the chosen bucket is a non-full bucket whose accumulated sum is
minimal among the non-full buckets, and every lower-indexed non-full
bucket has a strictly greater sum (ties break to the lowest bucket
index).  Third conjunct: the pending list the bucketer feeds the loop
(the reversed ascending sort) is ordered by descending eigenvalue, so at
every step the popped direction is the largest remaining one. -/
theorem bucket_greedy_policy {α : Type*} [LinearOrderedAddCommGroup α] :
    (∀ (vals : ℕ → α) (q i : ℕ) (pend : List ℕ) (L : List (List ℕ)) (P : List α),
      bucketLoop vals q (i :: pend) L P =
        match chooseBucket q L P with
        | none => none
        | some idx => bucketLoop vals q pend (L.set idx ((L.getD idx []) ++ [i]))
            (P.set idx (P.getD idx 0 + vals i))) ∧
    (∀ (q : ℕ) (L : List (List ℕ)) (P : List α) (idx : ℕ), chooseBucket q L P = some idx →
      idx < L.length ∧ (L.getD idx []).length < q ∧
      (∀ j, j < L.length → (L.getD j []).length < q → P.getD idx 0 ≤ P.getD j 0) ∧
      ∀ j, j < idx → (L.getD j []).length < q → P.getD idx 0 < P.getD j 0) ∧
    ∀ ev : List α, ((sortIndicesByValue ev).reverse).Pairwise
      fun a b => ev.getD b 0 ≤ ev.getD a 0 := by
  refine ⟨fun vals q i pend L P => rfl, chooseBucket_spec, ?_⟩
  intro ev
  haveI : IsTotal ℕ fun l r => ev.getD l 0 ≤ ev.getD r 0 := ⟨fun a b => le_total _ _⟩
  haveI : IsTrans ℕ fun l r => ev.getD l 0 ≤ ev.getD r 0 := ⟨fun a b c => le_trans⟩
  have hs : List.Sorted (fun l r => ev.getD l 0 ≤ ev.getD r 0) (sortIndicesByValue ev) :=
    List.sorted_insertionSort _ _
  rw [List.pairwise_reverse]
  exact hs

theorem bucket_greedy_policy_witness :
    1 < ([[1], [], []] : List (List ℕ)).length ∧
    (([[1], [], []] : List (List ℕ)).getD 1 []).length < 2 ∧
    (∀ j, j < ([[1], [], []] : List (List ℕ)).length →
      (([[1], [], []] : List (List ℕ)).getD j []).length < 2 →
      [(5 : ℤ), 0, 0].getD 1 0 ≤ [(5 : ℤ), 0, 0].getD j 0) ∧
    ∀ j, j < 1 → (([[1], [], []] : List (List ℕ)).getD j []).length < 2 →
      [(5 : ℤ), 0, 0].getD 1 0 < [(5 : ℤ), 0, 0].getD j 0 :=
  (bucket_greedy_policy (α := ℤ)).2.1 2 [[1], [], []] [(5 : ℤ), 0, 0] 1 (by decide)

theorem sum_map_sub_nsmul {α : Type*} [AddCommGroup α] (s : α) (f : ℕ → α) :
    ∀ b : List ℕ, (b.map fun i => f i - s).sum = (b.map f).sum - b.length • s := by
  intro b
  induction b with
  | nil => simp
  | cons a b ih =>
      simp only [List.map_cons, List.sum_cons, ih, List.length_cons, succ_nsmul]
      abel

/-- C8: with the shifted log-values `lnf (λ_i + eps) - s`, every final
bucket's shifted sum equals its unshifted log-sum minus `(D / M) • s`
(the same constant for every bucket, because every bucket ends up with
exactly `D / M` members), and consequently the relative ordering of the
final bucket sums is unchanged by the shift. -/
theorem bucket_shift_constant {α : Type*} [LinearOrderedAddCommGroup α] (lnf : α → α)
    (eps : α) (ev : List α) (M : ℕ) (hM : 0 < M) (hMD : M ≤ ev.length)
    (hdvd : ev.length % M = 0) (hpos : ∀ x ∈ ev, 0 ≤ x) (s : α) (bs : List (List ℕ))
    (hok : bucket_eigenvalues lnf eps ev M = .ok bs) :
    ∀ b ∈ bs,
      ((b.map fun i => (ev.map fun v => lnf (v + eps)).getD i 0 - s).sum
        = (b.map fun i => (ev.map fun v => lnf (v + eps)).getD i 0).sum - (ev.length / M) • s) ∧
      ∀ c ∈ bs,
        ((b.map fun i => (ev.map fun v => lnf (v + eps)).getD i 0 - s).sum ≤
          (c.map fun i => (ev.map fun v => lnf (v + eps)).getD i 0 - s).sum ↔
          (b.map fun i => (ev.map fun v => lnf (v + eps)).getD i 0).sum ≤
          (c.map fun i => (ev.map fun v => lnf (v + eps)).getD i 0).sum) := by
  obtain ⟨bs2, hok2, hlen2, hall2, -⟩ := bucket_eigenvalues_ok lnf eps ev M hM hMD hdvd hpos
  rw [hok] at hok2
  have hbs : bs = bs2 := Except.ok.inj hok2
  subst hbs
  intro b hb
  constructor
  · rw [sum_map_sub_nsmul s (fun i => (ev.map fun v => lnf (v + eps)).getD i 0) b,
      hall2 b hb]
  · intro c hc
    rw [sum_map_sub_nsmul s (fun i => (ev.map fun v => lnf (v + eps)).getD i 0) b,
      sum_map_sub_nsmul s (fun i => (ev.map fun v => lnf (v + eps)).getD i 0) c,
      hall2 b hb, hall2 c hc]
    exact sub_le_sub_iff_right _

theorem bucket_shift_constant_witness :
    (([3, 0].map fun i => ([(0 : ℤ), 1, 2, 3].map fun v => id (v + 0)).getD i 0 - 5).sum
      = (([3, 0].map fun i => ([(0 : ℤ), 1, 2, 3].map fun v => id (v + 0)).getD i 0).sum -
        ([(0 : ℤ), 1, 2, 3].length / 2) • (5 : ℤ))) ∧
    (([3, 0].map fun i => ([(0 : ℤ), 1, 2, 3].map fun v => id (v + 0)).getD i 0 - 5).sum ≤
      ([2, 1].map fun i => ([(0 : ℤ), 1, 2, 3].map fun v => id (v + 0)).getD i 0 - 5).sum ↔
      ([3, 0].map fun i => ([(0 : ℤ), 1, 2, 3].map fun v => id (v + 0)).getD i 0).sum ≤
      ([2, 1].map fun i => ([(0 : ℤ), 1, 2, 3].map fun v => id (v + 0)).getD i 0).sum) := by
  have h := bucket_shift_constant (α := ℤ) id 0 [0, 1, 2, 3] 2
    (by decide) (by decide) (by decide) (by decide) 5 [[3, 0], [2, 1]] (by decide)
  exact ⟨(h [3, 0] (by decide)).1, (h [3, 0] (by decide)).2 [2, 1] (by decide)⟩

theorem bucketLoop_six {α : Type*} [LinearOrderedAddCommGroup α] (v : ℕ → α)
    (a b c d e f : ℕ) (hcb : v c < v b) (hba : v b < v a) (h0b : 0 < v b) :
    bucketLoop v 2 [a, b, c, d, e, f] [[], [], []] [0, 0, 0] =
      some [[a, f], [b, e], [c, d]] := by
  have h0a : 0 < v a := h0b.trans hba
  simp [bucketLoop, chooseBucket, minByFirst, List.enum, List.enumFrom, List.filter,
    h0a, h0b, hba, hcb, not_lt.mpr (le_of_lt hba), not_lt.mpr (le_of_lt hcb),
    not_lt.mpr (le_of_lt h0a), not_lt.mpr (le_of_lt h0b), lt_irrefl]

theorem sortIndices_small_case {α : Type*} [LinearOrderedField α] :
    sortIndicesByValue [(0.2 : α), 0.6, 0.4, 0.1, 0.3, 0.5] = [3, 0, 4, 2, 5, 1] := by
  have hr : List.range 6 = [0, 1, 2, 3, 4, 5] := rfl
  norm_num [sortIndicesByValue, hr, List.insertionSort, List.orderedInsert]

theorem sortIndices_large_case {α : Type*} [LinearOrderedField α] :
    sortIndicesByValue [(11174 : α), 23450, 30835, 1557, 32425, 5154] = [3, 5, 0, 1, 2, 4] := by
  have hr : List.range 6 = [0, 1, 2, 3, 4, 5] := rfl
  norm_num [sortIndicesByValue, hr, List.insertionSort, List.orderedInsert]

theorem bucket_eigenvalues_small_case {α : Type*} [LinearOrderedField α] (lnf : α → α) (eps : α)
    (hmono : ∀ x y : α, 0 < x → x < y → lnf x < lnf y) (heps : 0 ≤ eps) :
    bucket_eigenvalues lnf eps [(0.2 : α), 0.6, 0.4, 0.1, 0.3, 0.5] 3 =
      .ok [[1, 3], [5, 0], [2, 4]] := by
  have l12 : lnf (0.1 + eps) < lnf (0.2 + eps) := hmono _ _ (by linarith) (by linarith)
  have l13 : lnf (0.1 + eps) < lnf (0.3 + eps) := hmono _ _ (by linarith) (by linarith)
  have l15 : lnf (0.1 + eps) < lnf (0.5 + eps) := hmono _ _ (by linarith) (by linarith)
  have l26 : lnf (0.2 + eps) < lnf (0.6 + eps) := hmono _ _ (by linarith) (by linarith)
  have l24 : lnf (0.2 + eps) < lnf (0.4 + eps) := hmono _ _ (by linarith) (by linarith)
  have l45 : lnf (0.4 + eps) < lnf (0.5 + eps) := hmono _ _ (by linarith) (by linarith)
  have l56 : lnf (0.5 + eps) < lnf (0.6 + eps) := hmono _ _ (by linarith) (by linarith)
  have hmin : listMin ([(0.2 : α), 0.6, 0.4, 0.1, 0.3, 0.5].map fun v => lnf (v + eps)) =
      some (lnf (0.1 + eps)) := by
    simp [listMin, minByFirst, not_lt.mpr (le_of_lt l26), not_lt.mpr (le_of_lt l24),
      l12, not_lt.mpr (le_of_lt l13), not_lt.mpr (le_of_lt l15)]
  have hloop := bucketLoop_six
    (fun i => (([(0.2 : α), 0.6, 0.4, 0.1, 0.3, 0.5].map fun v => lnf (v + eps)).map
      fun v => v - lnf (0.1 + eps)).getD i 0) 1 5 2 4 0 3
    (by simpa using sub_lt_sub_right l45 (lnf (0.1 + eps)))
    (by simpa using sub_lt_sub_right l56 (lnf (0.1 + eps)))
    (by simpa using sub_pos.mpr l15)
  have hsort := sortIndices_small_case (α := α)
  have c1 : (¬ (0 : ℕ) < 3) = False := eq_false (by decide)
  have c2 : (¬ 3 ≤ [(0.2 : α), 0.6, 0.4, 0.1, 0.3, 0.5].length) = False :=
    eq_false (by simp)
  have c3 : (¬ [(0.2 : α), 0.6, 0.4, 0.1, 0.3, 0.5].length % 3 = 0) = False :=
    eq_false (by simp)
  have chead : ([3, 0, 4, 2, 5, 1] : List ℕ).headD 0 = 3 := rfl
  have cget : ([(0.2 : α), 0.6, 0.4, 0.1, 0.3, 0.5]).getD 3 0 = 0.1 := rfl
  have c4 : (¬ (0 : α) ≤ 0.1) = False := eq_false (by norm_num)
  have cdiv : [(0.2 : α), 0.6, 0.4, 0.1, 0.3, 0.5].length / 3 = 2 := by simp
  have crev : ([3, 0, 4, 2, 5, 1] : List ℕ).reverse = [1, 5, 2, 4, 0, 3] := rfl
  have crep1 : List.replicate 3 ([] : List ℕ) = [[], [], []] := rfl
  have crep2 : List.replicate 3 (0 : α) = [0, 0, 0] := rfl
  simp only [bucket_eigenvalues, c1, c2, c3, hsort, chead, cget, c4, if_false, hmin,
    cdiv, crev, crep1, crep2, hloop]

theorem bucket_eigenvalues_large_case {α : Type*} [LinearOrderedField α] (lnf : α → α) (eps : α)
    (hmono : ∀ x y : α, 0 < x → x < y → lnf x < lnf y) (heps : 0 ≤ eps) :
    bucket_eigenvalues lnf eps [(11174 : α), 23450, 30835, 1557, 32425, 5154] 3 =
      .ok [[4, 3], [2, 5], [1, 0]] := by
  have l01 : lnf ((11174 : α) + eps) < lnf (23450 + eps) := hmono _ _ (by linarith) (by linarith)
  have l02 : lnf ((11174 : α) + eps) < lnf (30835 + eps) := hmono _ _ (by linarith) (by linarith)
  have l30 : lnf ((1557 : α) + eps) < lnf (11174 + eps) := hmono _ _ (by linarith) (by linarith)
  have l34 : lnf ((1557 : α) + eps) < lnf (32425 + eps) := hmono _ _ (by linarith) (by linarith)
  have l35 : lnf ((1557 : α) + eps) < lnf (5154 + eps) := hmono _ _ (by linarith) (by linarith)
  have l32 : lnf ((1557 : α) + eps) < lnf (30835 + eps) := hmono _ _ (by linarith) (by linarith)
  have l12 : lnf ((23450 : α) + eps) < lnf (30835 + eps) := hmono _ _ (by linarith) (by linarith)
  have l24 : lnf ((30835 : α) + eps) < lnf (32425 + eps) := hmono _ _ (by linarith) (by linarith)
  have hmin : listMin ([(11174 : α), 23450, 30835, 1557, 32425, 5154].map fun v => lnf (v + eps)) =
      some (lnf (1557 + eps)) := by
    simp [listMin, minByFirst, not_lt.mpr (le_of_lt l01), not_lt.mpr (le_of_lt l02),
      l30, not_lt.mpr (le_of_lt l34), not_lt.mpr (le_of_lt l35)]
  have hloop := bucketLoop_six
    (fun i => (([(11174 : α), 23450, 30835, 1557, 32425, 5154].map fun v => lnf (v + eps)).map
      fun v => v - lnf (1557 + eps)).getD i 0) 4 2 1 0 5 3
    (by simpa using sub_lt_sub_right l12 (lnf (1557 + eps)))
    (by simpa using sub_lt_sub_right l24 (lnf (1557 + eps)))
    (by simpa using sub_pos.mpr l32)
  have hsort := sortIndices_large_case (α := α)
  have c1 : (¬ (0 : ℕ) < 3) = False := eq_false (by decide)
  have c2 : (¬ 3 ≤ [(11174 : α), 23450, 30835, 1557, 32425, 5154].length) = False :=
    eq_false (by simp)
  have c3 : (¬ [(11174 : α), 23450, 30835, 1557, 32425, 5154].length % 3 = 0) = False :=
    eq_false (by simp)
  have chead : ([3, 5, 0, 1, 2, 4] : List ℕ).headD 0 = 3 := rfl
  have cget : ([(11174 : α), 23450, 30835, 1557, 32425, 5154]).getD 3 0 = 1557 := rfl
  have c4 : (¬ (0 : α) ≤ 1557) = False := eq_false (by norm_num)
  have cdiv : [(11174 : α), 23450, 30835, 1557, 32425, 5154].length / 3 = 2 := by simp
  have crev : ([3, 5, 0, 1, 2, 4] : List ℕ).reverse = [4, 2, 1, 0, 5, 3] := rfl
  have crep1 : List.replicate 3 ([] : List ℕ) = [[], [], []] := rfl
  have crep2 : List.replicate 3 (0 : α) = [0, 0, 0] := rfl
  simp only [bucket_eigenvalues, c1, c2, c3, hsort, chead, cget, c4, if_false, hmin,
    cdiv, crev, crep1, crep2, hloop]

/-- C4: on the literal eigenvalues `[0.2, 0.6, 0.4, 0.1, 0.3, 0.5]` with 3
buckets the bucketer returns the buckets `[1,3]`, `[5,0]`, `[2,4]` in that
order, and on `[11174, 23450, 30835, 1557, 32425, 5154]` with 3 buckets it
returns `[4,3]`, `[2,5]`, `[1,0]` — for every model of the float functions
in which `lnf` is strictly increasing on positive arguments and the
machine epsilon is non-negative. -/
theorem bucket_eigenvalues_concrete_cases {α : Type*} [LinearOrderedField α]
    (lnf : α → α) (eps : α) (hmono : ∀ x y : α, 0 < x → x < y → lnf x < lnf y)
    (heps : 0 ≤ eps) :
    bucket_eigenvalues lnf eps [(0.2 : α), 0.6, 0.4, 0.1, 0.3, 0.5] 3 =
      .ok [[1, 3], [5, 0], [2, 4]] ∧
    bucket_eigenvalues lnf eps [(11174 : α), 23450, 30835, 1557, 32425, 5154] 3 =
      .ok [[4, 3], [2, 5], [1, 0]] :=
  ⟨bucket_eigenvalues_small_case lnf eps hmono heps,
   bucket_eigenvalues_large_case lnf eps hmono heps⟩

theorem bucket_eigenvalues_concrete_cases_witness :
    bucket_eigenvalues id 0 [(0.2 : ℚ), 0.6, 0.4, 0.1, 0.3, 0.5] 3 =
      .ok [[1, 3], [5, 0], [2, 4]] ∧
    bucket_eigenvalues id 0 [(11174 : ℚ), 23450, 30835, 1557, 32425, 5154] 3 =
      .ok [[4, 3], [2, 5], [1, 0]] :=
  bucket_eigenvalues_concrete_cases id 0 (fun _ _ _ h => h) le_rfl

/-- C5: the codebook kept by `train_subquantizer` is the one of the trial
with the lowest loss, and when several trials tie on the minimal loss the
first-encountered trial (lowest attempt index) is kept: if `i` is the
first index among `0..n-1` attaining the minimal loss, the result is
trial `i`'s codebook. -/
theorem train_subquantizer_lowest_loss {γ : Type*} {β : Type*} [LinearOrder γ]
    (trial : ℕ → γ × β) (n : ℕ) (hn : 0 < n) (i : ℕ) (hi : i < n)
    (hmin : ∀ j, j < n → (trial i).1 ≤ (trial j).1)
    (hfirst : ∀ j, j < i → (trial i).1 < (trial j).1) :
    train_subquantizer trial n = .ok (trial i).2 := by
  have hne : (List.range n).map trial ≠ [] := by
    simp only [ne_eq, List.map_eq_nil_iff, List.range_eq_nil]
    omega
  obtain ⟨m, hm⟩ := minByFirst_isSome Prod.fst ((List.range n).map trial) hne
  have hget : ∀ j, j < n → ((List.range n).map trial)[j]? = some (trial j) := by
    intro j hj
    rw [List.getElem?_map, List.getElem?_range hj]
    rfl
  obtain ⟨s, t, hsplit, hs, ht⟩ := minByFirst_eq_some Prod.fst _ m hm
  have hslen : s.length < n := by
    have := congrArg List.length hsplit
    simp only [List.length_map, List.length_range, List.length_append,
      List.length_cons] at this
    omega
  have hmval : m = trial s.length := by
    have h1 := hget s.length hslen
    rw [hsplit, List.getElem?_append_right (le_refl s.length)] at h1
    simp only [Nat.sub_self, List.getElem?_cons_zero] at h1
    exact Option.some.inj h1
  have hmem_s : ∀ j, j < s.length → trial j ∈ s := by
    intro j hj
    have h1 := hget j (hj.trans hslen)
    rw [hsplit, List.getElem?_append_left hj] at h1
    obtain ⟨hjb, he⟩ := List.getElem?_eq_some.mp h1
    exact he ▸ List.getElem_mem hjb
  have hski : s.length = i := by
    rcases lt_trichotomy s.length i with h | h | h
    · exfalso
      have hlt := hfirst s.length h
      rw [← hmval] at hlt
      have hle := minByFirst_le Prod.fst _ m hm (trial i) (by
        obtain ⟨hib, he⟩ := List.getElem?_eq_some.mp (hget i hi)
        exact he ▸ List.getElem_mem hib)
      exact absurd hle (not_le.mpr hlt)
    · exact h
    · exfalso
      have hmem := hmem_s i h
      have := hs (trial i) hmem
      rw [hmval] at this
      exact absurd (hmin s.length hslen) (not_le.mpr this)
  unfold train_subquantizer
  rw [if_neg (not_not_intro hn), hm, hmval, hski]

theorem train_subquantizer_lowest_loss_witness :
    train_subquantizer (fun a => (([5, 3, 3] : List ℤ).getD a 9, a)) 3 = .ok 1 := by
  have h := train_subquantizer_lowest_loss (fun a => (([5, 3, 3] : List ℤ).getD a 9, a))
    3 (by decide) 1 (by decide) (by decide) (by decide)
  exact h

/-- C9: training and bucketing validate their configuration eagerly.
First conjunct: `check_quantizer_invariants` accepts exactly the
configurations with `1 ≤ M ≤ D`, `D % M = 0`, `bits ≥ 1`,
`iterations ≥ 1` and `attempts ≥ 1`, and every rejection is
`InvalidConfiguration`.  Second conjunct: when the check rejects,
`train_using` fails with `InvalidConfiguration` before any training work
and no model is produced.  Third conjunct: the bucketer rejects every
configuration violating `M > 0`, `D ≥ M` or `D % M = 0` with
`InvalidConfiguration` (in particular 6 eigenvalues into 4 buckets). -/
theorem eager_config_validation {α : Type*} {ρ : Type*} [LinearOrderedRing α] :
    (∀ M bits iters att D : ℕ,
      (check_quantizer_invariants M bits iters att D = .ok () ↔
        (0 < M ∧ M ≤ D ∧ D % M = 0 ∧ 0 < bits ∧ 0 < iters ∧ 0 < att)) ∧
      (check_quantizer_invariants M bits iters att D = .ok () ∨
        check_quantizer_invariants M bits iters att D = .error .invalidConfiguration)) ∧
    (∀ (select : List (List α) → ℕ → ρ → List (List α) × ρ)
        (kmeansRun : List (List α) → List (List α) → α × List (List α))
        (M bits iters att : ℕ) (instances : List (List α)) (D : ℕ) (rng : ρ)
        (schedule : List ℕ),
      check_quantizer_invariants M bits iters att D = .error .invalidConfiguration →
      train_using select kmeansRun M bits iters att instances D rng schedule =
        .error .invalidConfiguration) ∧
    ∀ (lnf : α → α) (eps : α) (ev : List α) (M : ℕ),
      ¬ (0 < M ∧ M ≤ ev.length ∧ ev.length % M = 0) →
      bucket_eigenvalues lnf eps ev M = .error .invalidConfiguration := by
  refine ⟨?_, ?_, ?_⟩
  · intro M bits iters att D
    constructor
    · unfold check_quantizer_invariants
      split_ifs with h1 h2 h3 h4 h5 <;> simp_all
    · unfold check_quantizer_invariants
      split_ifs <;> simp
  · intro select kmeansRun M bits iters att instances D rng schedule h
    unfold train_using
    rw [h]
  · intro lnf eps ev M h
    by_cases h1 : 0 < M
    · by_cases h2 : M ≤ ev.length
      · by_cases h3 : ev.length % M = 0
        · exact absurd ⟨h1, h2, h3⟩ h
        · simp [bucket_eigenvalues, h1, h2, h3]
      · simp [bucket_eigenvalues, h1, h2]
    · simp [bucket_eigenvalues, h1]

theorem eager_config_validation_witness :
    check_quantizer_invariants 4 1 1 1 6 = .error .invalidConfiguration ∧
    bucket_eigenvalues id 0 ([1, 2, 3, 4, 5, 6] : List ℤ) 4 =
      .error .invalidConfiguration ∧
    train_using (fun (_ : List (List ℤ)) (_ : ℕ) (r : Unit) => ([], r))
      (fun _ q => (0, q)) 4 1 1 1 [] 6 () [] = .error .invalidConfiguration := by
  refine ⟨?_, ?_, ?_⟩
  · rcases ((eager_config_validation (α := ℤ) (ρ := Unit)).1 4 1 1 1 6).2 with h | h
    · exact absurd h (by decide)
    · exact h
  · exact (eager_config_validation (α := ℤ) (ρ := Unit)).2.2 id 0 [1, 2, 3, 4, 5, 6] 4
      (by decide)
  · exact (eager_config_validation (α := ℤ) (ρ := Unit)).2.1 _ _ 4 1 1 1 [] 6 () []
      (by decide)

theorem setSlice_of_le {α : Type*} (buf : List α) (off : ℕ) (piece : List α)
    (h : off + piece.length ≤ buf.length) :
    setSlice buf off piece =
      .ok (buf.take off ++ piece ++ buf.drop (off + piece.length)) := by
  unfold setSlice
  rw [if_pos h]

theorem setSlice_length {α : Type*} (buf : List α) (off : ℕ) (piece : List α)
    (h : off + piece.length ≤ buf.length) :
    (buf.take off ++ piece ++ buf.drop (off + piece.length)).length = buf.length := by
  simp only [List.length_append, List.length_take, List.length_drop]
  omega

theorem reconstructLoop_ok {α : Type*} [Zero α] (k d : ℕ) (hk : 0 < k) :
    ∀ (codes : List ℕ) (qs : List (List (List α))) (done Z : List α),
      qs.length = codes.length →
      (∀ q ∈ qs, q.length = k ∧ ∀ r ∈ q, r.length = d) →
      (∀ c ∈ codes, c < k) →
      Z.length = codes.length * d →
      reconstructLoop codes qs done.length (done ++ Z) =
        .ok (done ++ (List.zipWith (fun c q => q.getD c []) codes qs).flatten) := by
  intro codes
  induction codes with
  | nil =>
      intro qs done Z hlen hq hc hZ
      have hqs : qs = [] := List.length_eq_zero.mp (by simpa using hlen)
      have hZn : Z = [] := List.length_eq_zero.mp (by simpa using hZ)
      subst hqs hZn
      simp [reconstructLoop]
  | cons c cs ih =>
      intro qs done Z hlen hq hc hZ
      match qs with
      | [] => simp at hlen
      | q :: qs2 =>
        have hqk : q.length = k := (hq q (List.mem_cons_self q qs2)).1
        have hck : c < q.length := by
          rw [hqk]
          exact hc c (List.mem_cons_self c cs)
        have hrow : (q.getD c []) ∈ q := by
          rw [getD_eq_of_lt q [] c hck]
          exact List.getElem_mem hck
        have hrowd : (q.getD c []).length = d := (hq q (List.mem_cons_self q qs2)).2 _ hrow
        have hcols : cols q = d := by
          have hq0 : q.headD [] ∈ q := by
            cases q with
            | nil => simp at hqk; omega
            | cons r rs => simp
          exact (hq q (List.mem_cons_self q qs2)).2 _ hq0
        have hZlen : d ≤ Z.length := by
          rw [hZ, List.length_cons]
          calc d = 1 * d := (one_mul d).symm
          _ ≤ (cs.length + 1) * d := Nat.mul_le_mul_right d (by omega)
        have hbound : done.length + (q.getD c []).length ≤ (done ++ Z).length := by
          rw [List.length_append, hrowd]
          omega
        unfold reconstructLoop
        rw [if_neg (not_not_intro hck), setSlice_of_le _ _ _ hbound]
        have htake : (done ++ Z).take done.length = done := List.take_left done Z
        have hdrop : (done ++ Z).drop (done.length + (q.getD c []).length) =
            Z.drop d := by
          rw [hrowd]
          rw [List.drop_append_eq_append_drop]
          simp
        rw [htake, hdrop]
        have hofflen : done.length + cols q = (done ++ q.getD c []).length := by
          rw [List.length_append, hrowd, hcols]
        rw [hofflen]
        have hrec := ih qs2 (done ++ q.getD c []) (Z.drop d)
          (by simpa using hlen)
          (fun q2 hq2 => hq q2 (List.mem_cons_of_mem q hq2))
          (fun c2 hc2 => hc c2 (List.mem_cons_of_mem c hc2))
          (by
            rw [List.length_drop, hZ, List.length_cons]
            ring_nf
            omega)
        show reconstructLoop cs qs2 (done ++ q.getD c []).length
            (done ++ q.getD c [] ++ Z.drop d) =
          Except.ok (done ++ (List.zipWith (fun c q => q.getD c []) (c :: cs) (q :: qs2)).flatten)
        rw [show done ++ q.getD c [] ++ Z.drop d = (done ++ q.getD c []) ++ Z.drop d by
          simp [List.append_assoc]]
        rw [hrec]
        simp [List.append_assoc]

theorem reconstructLoop_invalidCode {α : Type*} [Zero α] (k d : ℕ) :
    ∀ (codes : List ℕ) (qs : List (List (List α))) (off : ℕ) (buf : List α),
      qs.length = codes.length →
      (∀ q ∈ qs, q.length = k ∧ ∀ r ∈ q, r.length = d) →
      buf.length = off + codes.length * d →
      (∃ c ∈ codes, ¬ c < k) →
      reconstructLoop codes qs off buf = .error .invalidCode := by
  intro codes
  induction codes with
  | nil =>
      intro qs off buf hlen hq hbuf hbad
      simp at hbad
  | cons c cs ih =>
      intro qs off buf hlen hq hbuf hbad
      match qs with
      | [] => simp at hlen
      | q :: qs2 =>
        have hqk : q.length = k := (hq q (List.mem_cons_self q qs2)).1
        by_cases hck : c < k
        · have hckq : c < q.length := hqk ▸ hck
          have hrow : (q.getD c []) ∈ q := by
            rw [getD_eq_of_lt q [] c hckq]
            exact List.getElem_mem hckq
          have hrowd : (q.getD c []).length = d := (hq q (List.mem_cons_self q qs2)).2 _ hrow
          have hbound : off + (q.getD c []).length ≤ buf.length := by
            rw [hbuf, List.length_cons, hrowd]
            have : d ≤ (cs.length + 1) * d := by
              calc d = 1 * d := (one_mul d).symm
              _ ≤ (cs.length + 1) * d := Nat.mul_le_mul_right d (by omega)
            omega
          unfold reconstructLoop
          rw [if_neg (not_not_intro hckq), setSlice_of_le _ _ _ hbound]
          have hbad2 : ∃ c2 ∈ cs, ¬ c2 < k := by
            rcases hbad with ⟨c2, hc2m, hc2⟩
            rcases List.mem_cons.mp hc2m with he | hm
            · exact absurd (he ▸ hck) hc2
            · exact ⟨c2, hm, hc2⟩
          have hcols : cols q = d := by
            have hq0 : q.headD [] ∈ q := by
              cases q with
              | nil => simp at hqk; omega
              | cons r rs => simp
            exact (hq q (List.mem_cons_self q qs2)).2 _ hq0
          exact ih qs2 (off + cols q) _
            (by simpa using hlen)
            (fun q2 hq2 => hq q2 (List.mem_cons_of_mem q hq2))
            (by
              rw [setSlice_length _ _ _ hbound, hbuf, List.length_cons, hcols]
              ring)
            hbad2
        · have hcq : ¬ c < q.length := hqk ▸ hck
          unfold reconstructLoop
          rw [if_pos (by simpa using hcq)]

theorem zip_rows_flatten_length {α : Type*} (k d : ℕ) :
    ∀ (codes : List ℕ) (qs : List (List (List α))),
      qs.length = codes.length →
      (∀ q ∈ qs, q.length = k ∧ ∀ r ∈ q, r.length = d) →
      (∀ c ∈ codes, c < k) →
      ((List.zipWith (fun c q => q.getD c []) codes qs).flatten).length =
        codes.length * d := by
  intro codes
  induction codes with
  | nil => intro qs hlen hq hc; simp
  | cons c cs ih =>
      intro qs hlen hq hc
      match qs with
      | [] => simp at hlen
      | q :: qs2 =>
        have hqk : q.length = k := (hq q (List.mem_cons_self q qs2)).1
        have hck : c < q.length := hqk ▸ hc c (List.mem_cons_self c cs)
        have hrow : (q.getD c []) ∈ q := by
          rw [getD_eq_of_lt q [] c hck]
          exact List.getElem_mem hck
        have hrowd : (q.getD c []).length = d := (hq q (List.mem_cons_self q qs2)).2 _ hrow
        simp only [List.zipWith_cons_cons, List.flatten_cons, List.length_append, hrowd,
          List.length_cons]
        rw [ih qs2 (by simpa using hlen)
          (fun q2 hq2 => hq q2 (List.mem_cons_of_mem q hq2))
          (fun c2 hc2 => hc c2 (List.mem_cons_of_mem c hc2))]
        ring

theorem cols_eq_of_shape {α : Type*} (k d : ℕ) (hk : 0 < k) (q : List (List α))
    (hq : q.length = k ∧ ∀ r ∈ q, r.length = d) : cols q = d := by
  cases q with
  | nil =>
      exfalso
      rw [List.length_nil] at hq
      omega
  | cons r rs => exact hq.2 r (by simp)

theorem reconstruct_ok {α : Type*} [Zero α] (k d : ℕ) (hk : 0 < k)
    (qs : List (List (List α))) (hne : qs ≠ [])
    (hq : ∀ q ∈ qs, q.length = k ∧ ∀ r ∈ q, r.length = d) (code : List ℕ)
    (hlen : code.length = qs.length) (hcode : ∀ c ∈ code, c < k) :
    reconstruct qs code =
      .ok ((List.zipWith (fun c q => q.getD c []) code qs).flatten) := by
  cases qs with
  | nil => exact absurd rfl hne
  | cons q0 qs2 =>
    have hcols0 : cols q0 = d :=
      cols_eq_of_shape k d hk q0 (hq q0 (List.mem_cons_self q0 qs2))
    unfold reconstruct
    rw [if_neg (not_not_intro hlen.symm)]
    have happ := reconstructLoop_ok k d hk code (q0 :: qs2) []
      (List.replicate ((q0 :: qs2).length * cols q0) 0)
      hlen.symm hq hcode
      (by rw [List.length_replicate, hcols0, hlen])
    simpa using happ

theorem reconstruct_wrong_length {α : Type*} [Zero α] (qs : List (List (List α)))
    (code : List ℕ) (h : ¬ code.length = qs.length) :
    reconstruct qs code = .error .dimensionMismatch := by
  unfold reconstruct
  rw [if_pos (fun hc => h hc.symm)]

theorem reconstruct_bad_code {α : Type*} [Zero α] (k d : ℕ) (hk : 0 < k)
    (qs : List (List (List α))) (hne : qs ≠ [])
    (hq : ∀ q ∈ qs, q.length = k ∧ ∀ r ∈ q, r.length = d) (code : List ℕ)
    (hlen : code.length = qs.length) (hbad : ∃ c ∈ code, ¬ c < k) :
    reconstruct qs code = .error .invalidCode := by
  cases qs with
  | nil => exact absurd rfl hne
  | cons q0 qs2 =>
    have hcols0 : cols q0 = d :=
      cols_eq_of_shape k d hk q0 (hq q0 (List.mem_cons_self q0 qs2))
    unfold reconstruct
    rw [if_neg (not_not_intro hlen.symm)]
    exact reconstructLoop_invalidCode k d code (q0 :: qs2) 0 _
      hlen.symm hq
      (by rw [List.length_replicate, hcols0, hlen]; omega)
      hbad

theorem sqDist_self {α : Type*} [Ring α] : ∀ x : List α, sqDist x x = 0 := by
  intro x
  induction x with
  | nil => rfl
  | cons a x ih =>
      unfold sqDist at ih ⊢
      simp [List.zipWith_cons_cons, ih]

theorem sqDist_nonneg {α : Type*} [LinearOrderedRing α] :
    ∀ x y : List α, 0 ≤ sqDist x y := by
  intro x
  induction x with
  | nil => intro y; apply le_of_eq; rfl
  | cons a x ih =>
      intro y
      cases y with
      | nil => apply le_of_eq; rfl
      | cons b y =>
          unfold sqDist at ih ⊢
          rw [List.zipWith_cons_cons, List.sum_cons]
          exact add_nonneg (mul_self_nonneg (a - b)) (ih y)

theorem sqDist_eq_zero {α : Type*} [LinearOrderedRing α] :
    ∀ x y : List α, x.length = y.length → sqDist x y = 0 → x = y := by
  intro x
  induction x with
  | nil =>
      intro y hlen _
      exact (List.length_eq_zero.mp (by simpa using hlen.symm)).symm
  | cons a x ih =>
      intro y hlen hz
      cases y with
      | nil => simp at hlen
      | cons b y =>
          unfold sqDist at hz
          rw [List.zipWith_cons_cons, List.sum_cons] at hz
          have hz2 : (a - b) * (a - b) + sqDist x y = 0 := hz
          have hterm := mul_self_nonneg (a - b)
          have hrest := sqDist_nonneg x y
          have hT : (a - b) * (a - b) = 0 := by
            have hTS : (a - b) * (a - b) = -sqDist x y := eq_neg_of_add_eq_zero_left hz2
            exact le_antisymm (hTS ▸ neg_nonpos.mpr hrest) hterm
          have hS : sqDist x y = 0 := by
            have hz3 := hz2
            rw [hT, zero_add] at hz3
            exact hz3
          have hab : a = b := sub_eq_zero.mp (mul_self_eq_zero.mp hT)
          have hxy : x = y := ih y (by simpa using hlen) hS
          rw [hab, hxy]

theorem cluster_assignment_self {α : Type*} [LinearOrderedRing α] (q : List (List α))
    (d : ℕ) (hrows : ∀ r ∈ q, r.length = d) (hnd : q.Nodup) (c : ℕ) (hc : c < q.length) :
    cluster_assignment q (q.getD c []) = c := by
  obtain ⟨m, hm⟩ := minByFirst_isSome (fun p : ℕ × List α => sqDist p.2 (q.getD c []))
    q.enum (by
      intro hcon
      have h0 : q.length = 0 := by
        have := congrArg List.length hcon
        simpa using this
      omega)
  have hmle := minByFirst_le _ _ m hm (c, q.getD c []) (mem_enum_of_lt q [] c hc)
  have hself : sqDist (q.getD c []) (q.getD c []) = 0 := sqDist_self _
  simp only [hself] at hmle
  have hmkey : sqDist m.2 (q.getD c []) = 0 :=
    le_antisymm hmle (sqDist_nonneg _ _)
  have hmenum : m ∈ q.enum := minByFirst_mem _ _ m hm
  have hmget : q[m.1]? = some m.2 := List.mem_enum_iff_getElem?.mp hmenum
  obtain ⟨hm1, hm2⟩ := List.getElem?_eq_some.mp hmget
  have hm2mem : m.2 ∈ q := hm2 ▸ List.getElem_mem hm1
  have hcmem : q.getD c [] ∈ q := by
    rw [getD_eq_of_lt q [] c hc]
    exact List.getElem_mem hc
  have hm2eq : m.2 = q.getD c [] :=
    sqDist_eq_zero m.2 (q.getD c []) (by rw [hrows _ hm2mem, hrows _ hcmem]) hmkey
  have hgeteq : q[m.1] = q[c] := by
    rw [hm2, hm2eq, getD_eq_of_lt q [] c hc]
  have hm1c : m.1 = c := (List.Nodup.getElem_inj_iff hnd).mp hgeteq
  unfold cluster_assignment
  rw [hm]
  exact hm1c

theorem quantizeLoop_concat {α : Type*} [LinearOrderedRing α] (k d : ℕ) (hk : 0 < k) :
    ∀ (qs : List (List (List α))) (code : List ℕ),
      qs.length = code.length →
      (∀ q ∈ qs, q.length = k ∧ (∀ r ∈ q, r.length = d) ∧ q.Nodup) →
      (∀ c ∈ code, c < k) →
      quantizeLoop qs ((List.zipWith (fun c q => q.getD c []) code qs).flatten) =
        .ok code := by
  intro qs
  induction qs with
  | nil =>
      intro code hlen hq hc
      have : code = [] := List.length_eq_zero.mp (by simpa using hlen.symm)
      subst this
      rfl
  | cons q qs2 ih =>
      intro code hlen hq hc
      match code with
      | [] => simp at hlen
      | c :: cs =>
        have hqk : q.length = k := (hq q (List.mem_cons_self q qs2)).1
        have hck : c < q.length := hqk ▸ hc c (List.mem_cons_self c cs)
        have hrow : (q.getD c []) ∈ q := by
          rw [getD_eq_of_lt q [] c hck]
          exact List.getElem_mem hck
        have hrowd : (q.getD c []).length = d := (hq q (List.mem_cons_self q qs2)).2.1 _ hrow
        have hcols : cols q = d :=
          cols_eq_of_shape k d hk q ⟨hqk, (hq q (List.mem_cons_self q qs2)).2.1⟩
        simp only [List.zipWith_cons_cons, List.flatten_cons]
        unfold quantizeLoop
        have hguard : cols q ≤ (q.getD c [] ++
            (List.zipWith (fun c q => q.getD c []) cs qs2).flatten).length := by
          rw [List.length_append, hcols, hrowd]
          omega
        rw [if_neg (not_not_intro hguard)]
        have htake : (q.getD c [] ++
            (List.zipWith (fun c q => q.getD c []) cs qs2).flatten).take (cols q) =
            q.getD c [] := by
          rw [hcols, ← hrowd, List.take_left]
        have hdrop : (q.getD c [] ++
            (List.zipWith (fun c q => q.getD c []) cs qs2).flatten).drop (cols q) =
            (List.zipWith (fun c q => q.getD c []) cs qs2).flatten := by
          rw [hcols, ← hrowd, List.drop_left]
        rw [hdrop, htake]
        have hrec := ih cs (by simpa using hlen)
          (fun q2 hq2 => hq q2 (List.mem_cons_of_mem q hq2))
          (fun c2 hc2 => hc c2 (List.mem_cons_of_mem c hc2))
        rw [hrec]
        rw [cluster_assignment_self q d (hq q (List.mem_cons_self q qs2)).2.1
          (hq q (List.mem_cons_self q qs2)).2.2 c hck]

/-- C2 (amended): for every well-formed model whose codebooks have
pairwise-distinct centroid rows and every code of length `M` with entries
below `2 ^ bits`, quantizing the reconstruction returns the same code:
the reconstruction is exactly the chosen centroids, each centroid is at
squared distance 0 from itself and at positive squared distance from
every other (distinct) centroid, so the nearest-centroid assignment
returns the original indices. -/
theorem requantize_roundtrip {α : Type*} [LinearOrderedRing α] (bits d : ℕ)
    (pq : PQmodel α) (hwf : pq.WellFormed bits d)
    (hnd : ∀ q ∈ pq.quantizers, q.Nodup) (code : List ℕ)
    (hlen : code.length = pq.quantizers.length) (hcode : ∀ c ∈ code, c < 2 ^ bits) :
    ∃ r, reconstruct pq.quantizers code = .ok r ∧
      quantize pq.quantizers pq.quantizer_len r = .ok code := by
  obtain ⟨hne, hq, hql⟩ := hwf
  have hk : 0 < 2 ^ bits := Nat.two_pow_pos bits
  refine ⟨_, reconstruct_ok (2 ^ bits) d hk pq.quantizers hne hq code hlen hcode, ?_⟩
  have hflen : ((List.zipWith (fun c q => q.getD c []) code pq.quantizers).flatten).length =
      pq.quantizer_len := by
    rw [zip_rows_flatten_length (2 ^ bits) d code pq.quantizers hlen.symm hq hcode,
      hlen, hql]
  unfold quantize
  rw [if_neg (not_not_intro hflen.symm)]
  exact quantizeLoop_concat (2 ^ bits) d hk pq.quantizers code hlen.symm
    (fun q hqm => ⟨(hq q hqm).1, (hq q hqm).2, hnd q hqm⟩) hcode

/-- C2 counterexample: a well-formed model (one subquantizer, 1 bit, two
identical centroids `[0]` and `[0]`) on which the claim as stated fails:
code `[1]` reconstructs to `[0]`, but re-quantizing `[0]` returns code
`[0]` (the tie breaks to the lower centroid index), not `[1]`. -/
theorem requantize_roundtrip_counterexample :
    (PQmodel.mk 1 [[[0], [0]]] : PQmodel ℤ).WellFormed 1 1 ∧
    reconstruct ([[[0], [0]]] : List (List (List ℤ))) [1] = .ok [0] ∧
    quantize ([[[0], [0]]] : List (List (List ℤ))) 1 [0] = .ok [0] ∧
    ¬ quantize ([[[0], [0]]] : List (List (List ℤ))) 1 [0] = .ok [1] := by
  refine ⟨?_, ?_, ?_, ?_⟩ <;> decide

theorem requantize_roundtrip_witness :
    ∃ r, reconstruct ([[[1, 0, 0], [0, 1, 0]], [[1, -1, 0], [0, 1, 0]]] :
        List (List (List ℤ))) [1, 0] = .ok r ∧
      quantize ([[[1, 0, 0], [0, 1, 0]], [[1, -1, 0], [0, 1, 0]]] :
        List (List (List ℤ))) 6 r = .ok [1, 0] := by
  have h := requantize_roundtrip 1 3
    (PQmodel.mk 6 [[[1, 0, 0], [0, 1, 0]], [[1, -1, 0], [0, 1, 0]]])
    (by decide) (by decide) [1, 0] (by decide) (by decide)
  exact h

/-- C6 (amended): for every well-formed model, `reconstruct` requires
`len(code) = M` and fails with `DimensionMismatch` otherwise; with the
right length, every entry must be below `2 ^ bits` or it fails with
`InvalidCode`; for a valid code the result is exactly the concatenation,
in subquantizer (slice) order, of row `code[m]` of codebook `m`, and its
length is the model's vector length `D`. -/
theorem reconstruct_spec {α : Type*} [Zero α] (bits d : ℕ) (pq : PQmodel α)
    (hwf : pq.WellFormed bits d) :
    (∀ code : List ℕ, ¬ code.length = pq.quantizers.length →
      reconstruct pq.quantizers code = .error .dimensionMismatch) ∧
    (∀ code : List ℕ, code.length = pq.quantizers.length →
      (∃ c ∈ code, ¬ c < 2 ^ bits) →
      reconstruct pq.quantizers code = .error .invalidCode) ∧
    ∀ code : List ℕ, code.length = pq.quantizers.length → (∀ c ∈ code, c < 2 ^ bits) →
      reconstruct pq.quantizers code =
        .ok ((List.zipWith (fun c q => q.getD c []) code pq.quantizers).flatten) ∧
      ((List.zipWith (fun c q => q.getD c []) code pq.quantizers).flatten).length =
        pq.quantizer_len := by
  obtain ⟨hne, hq, hql⟩ := hwf
  have hk : 0 < 2 ^ bits := Nat.two_pow_pos bits
  refine ⟨?_, ?_, ?_⟩
  · intro code h
    exact reconstruct_wrong_length pq.quantizers code h
  · intro code hlen hbad
    exact reconstruct_bad_code (2 ^ bits) d hk pq.quantizers hne hq code hlen hbad
  · intro code hlen hcode
    refine ⟨reconstruct_ok (2 ^ bits) d hk pq.quantizers hne hq code hlen hcode, ?_⟩
    rw [zip_rows_flatten_length (2 ^ bits) d code pq.quantizers hlen.symm hq hcode,
      hlen, hql]

/-- C6 counterexample: on a well-formed model a wrong-length code fails
with `DimensionMismatch`, not `InvalidCode`, so "failing with
`InvalidCode` otherwise" is wrong for the length requirement. -/
theorem reconstruct_spec_counterexample :
    (PQmodel.mk 6 [[[1, 0, 0], [0, 1, 0]], [[1, -1, 0], [0, 1, 0]]] :
      PQmodel ℤ).WellFormed 1 3 ∧
    reconstruct ([[[1, 0, 0], [0, 1, 0]], [[1, -1, 0], [0, 1, 0]]] :
      List (List (List ℤ))) [0] = .error .dimensionMismatch ∧
    PqError.dimensionMismatch ≠ PqError.invalidCode := by
  refine ⟨?_, ?_, ?_⟩ <;> decide

theorem reconstruct_spec_witness :
    reconstruct ([[[1, 0, 0], [0, 1, 0]], [[1, -1, 0], [0, 1, 0]]] :
      List (List (List ℤ))) [7, 0] = .error .invalidCode ∧
    reconstruct ([[[1, 0, 0], [0, 1, 0]], [[1, -1, 0], [0, 1, 0]]] :
      List (List (List ℤ))) [1, 0] =
      .ok ((List.zipWith (fun c q => q.getD c []) [1, 0]
        ([[[1, 0, 0], [0, 1, 0]], [[1, -1, 0], [0, 1, 0]]] :
          List (List (List ℤ)))).flatten) := by
  have h := reconstruct_spec 1 3
    (PQmodel.mk 6 [[[1, 0, 0], [0, 1, 0]], [[1, -1, 0], [0, 1, 0]]]) (by decide)
  exact ⟨h.2.1 [7, 0] (by decide) (by decide), (h.2.2 [1, 0] (by decide) (by decide)).1⟩

theorem mapExcept_rows {β : Type*} {γ : Type*} {ε : Type*} (f : β → Except ε γ)
    (d1 : β) (d2 : γ) :
    ∀ (l : List β) (r : List γ), mapExcept f l = .ok r →
      r.length = l.length ∧ ∀ i, i < l.length → f (l.getD i d1) = .ok (r.getD i d2) := by
  intro l
  induction l with
  | nil =>
      intro r h
      have h2 : Except.ok ([] : List γ) = (Except.ok r : Except ε (List γ)) := h
      have hr : r = [] := (Except.ok.inj h2).symm
      subst hr
      exact ⟨rfl, by intro i hi; simp at hi⟩
  | cons x xs ih =>
      intro r h
      unfold mapExcept at h
      cases hfx : f x with
      | error e => rw [hfx] at h; exact absurd h (by simp)
      | ok y =>
        rw [hfx] at h
        cases hrest : mapExcept f xs with
        | error e => rw [hrest] at h; exact absurd h (by simp)
        | ok ys =>
          rw [hrest] at h
          have hr : r = y :: ys := (Except.ok.inj h).symm
          subst hr
          obtain ⟨hlen, hrow⟩ := ih ys hrest
          refine ⟨by simp [hlen], ?_⟩
          intro i hi
          cases i with
          | zero => simpa using hfx
          | succ j =>
              simp only [List.getD_cons_succ]
              exact hrow j (by simpa using hi)

theorem quantizeBatchLoop_rows {α : Type*} [LinearOrderedRing α] :
    ∀ (qs : List (List (List α))) (xs : List (List α)) (ncols : ℕ) (B : List (List ℕ)),
      (∀ r ∈ xs, r.length = ncols) →
      quantizeBatchLoop qs xs ncols = .ok B →
      B.length = xs.length ∧ ∀ i, i < xs.length →
        quantizeLoop qs (xs.getD i []) = .ok (B.getD i []) := by
  intro qs
  induction qs with
  | nil =>
      intro xs ncols B hrows h
      have h2 : Except.ok (xs.map fun _ => ([] : List ℕ)) =
          (Except.ok B : Except PqError (List (List ℕ))) := h
      have hB : B = xs.map fun _ => [] := (Except.ok.inj h2).symm
      subst hB
      refine ⟨by simp, ?_⟩
      intro i hi
      have hget : (xs.map fun _ => ([] : List ℕ)).getD i [] = [] := by
        rw [getD_eq_of_lt _ _ i (by simpa using hi), List.getElem_map]
      rw [hget]
      rfl
  | cons q qs2 ih =>
      intro xs ncols B hrows h
      unfold quantizeBatchLoop at h
      by_cases hg : cols q ≤ ncols
      · rw [if_neg (not_not_intro hg)] at h
        cases hrest : quantizeBatchLoop qs2 (xs.map (List.drop (cols q))) (ncols - cols q) with
        | error e => rw [hrest] at h; exact absurd h (by simp)
        | ok rest =>
          rw [hrest] at h
          have hB : B = List.zipWith (fun c r => c :: r)
              (cluster_assignments q (xs.map (List.take (cols q)))) rest :=
            (Except.ok.inj h).symm
          obtain ⟨hrlen, hrow⟩ := ih (xs.map (List.drop (cols q))) (ncols - cols q) rest
            (by
              intro r hr
              obtain ⟨r0, hr0, hr0e⟩ := List.mem_map.mp hr
              rw [← hr0e, List.length_drop, hrows r0 hr0])
            hrest
          subst hB
          have hblen : (List.zipWith (fun c r => c :: r)
              (cluster_assignments q (xs.map (List.take (cols q)))) rest).length =
              xs.length := by
            simp only [List.length_zipWith, cluster_assignments, List.length_map, hrlen]
            exact min_self xs.length
          refine ⟨hblen, ?_⟩
          intro i hi
          have hrowlen : (xs.getD i []).length = ncols := by
            rw [getD_eq_of_lt xs [] i hi]
            exact hrows _ (List.getElem_mem hi)
          unfold quantizeLoop
          rw [if_neg (not_not_intro (by rw [hrowlen]; exact hg))]
          have hdropped : (xs.map (List.drop (cols q))).getD i [] =
              (xs.getD i []).drop (cols q) := by
            rw [getD_eq_of_lt _ _ i (by simpa using hi), List.getElem_map,
              getD_eq_of_lt xs [] i hi]
          have hr2 := hrow i (by simpa using hi)
          rw [hdropped] at hr2
          have hBgetD : (List.zipWith (fun c r => c :: r)
              (cluster_assignments q (xs.map (List.take (cols q)))) rest).getD i [] =
              cluster_assignment q ((xs.getD i []).take (cols q)) :: rest.getD i [] := by
            have hica : i < (cluster_assignments q (xs.map (List.take (cols q)))).length := by
              simp only [cluster_assignments, List.length_map]
              exact hi
            have hirest : i < rest.length := by
              rw [hrlen]
              simpa using hi
            rw [getD_eq_of_lt _ _ i (by rw [hblen]; exact hi)]
            rw [List.getElem_zipWith]
            have h1 : (cluster_assignments q (xs.map (List.take (cols q))))[i] =
                cluster_assignment q ((xs.getD i []).take (cols q)) := by
              simp only [cluster_assignments]
              rw [List.getElem_map, List.getElem_map, getD_eq_of_lt xs [] i hi]
            have h2 : rest[i] = rest.getD i [] := by
              rw [getD_eq_of_lt rest [] i hirest]
            rw [h1, h2]
          rw [hBgetD]
          simp only [hr2]
      · rw [if_pos hg] at h
        exact absurd h (by simp)

/-- C7: the batch operations agree row-for-row with the single-vector
operations: whenever `quantize_batch` succeeds on a matrix whose rows all
have the matrix's column count, row `i` of its result is `quantize` of
row `i`, and whenever `reconstruct_batch` succeeds, row `i` of its result
is `reconstruct` of row `i`; there is no cross-row interaction. -/
theorem batch_rowwise_agreement {α : Type*} [LinearOrderedRing α] :
    (∀ (qs : List (List (List α))) (L : ℕ) (xs : List (List α)) (ncols : ℕ)
        (B : List (List ℕ)), (∀ r ∈ xs, r.length = ncols) →
      quantize_batch qs L xs ncols = .ok B →
      B.length = xs.length ∧ ∀ i, i < xs.length →
        quantize qs L (xs.getD i []) = .ok (B.getD i [])) ∧
    ∀ (qs : List (List (List α))) (codes : List (List ℕ)) (ncols : ℕ)
        (R : List (List α)), reconstruct_batch qs codes ncols = .ok R →
      R.length = codes.length ∧ ∀ i, i < codes.length →
        reconstruct qs (codes.getD i []) = .ok (R.getD i []) := by
  constructor
  · intro qs L xs ncols B hrows h
    unfold quantize_batch at h
    by_cases hL : L = ncols
    · rw [if_neg (not_not_intro hL)] at h
      obtain ⟨hlen, hrow⟩ := quantizeBatchLoop_rows qs xs ncols B hrows h
      refine ⟨hlen, ?_⟩
      intro i hi
      unfold quantize
      have hLr : L = (xs.getD i []).length := by
        rw [getD_eq_of_lt xs [] i hi, hrows _ (List.getElem_mem hi), hL]
      rw [if_neg (not_not_intro hLr)]
      exact hrow i hi
    · rw [if_pos hL] at h
      exact absurd h (by simp)
  · intro qs codes ncols R h
    unfold reconstruct_batch at h
    by_cases hqn : qs.length = ncols
    · rw [if_neg (not_not_intro hqn)] at h
      cases qs with
      | nil => exact absurd h (by simp)
      | cons q0 qs2 => exact mapExcept_rows _ [] [] codes R h
    · rw [if_pos hqn] at h
      exact absurd h (by simp)

theorem batch_rowwise_agreement_witness :
    quantize ([[[1, 0, 0], [0, 1, 0]], [[1, -1, 0], [0, 1, 0]]] : List (List (List ℤ))) 6
        ([[1, 0, 0, 0, 1, 0], [0, 4, 0, -1, 0, 0]].getD 1 []) =
      .ok (([[0, 1], [1, 1]] : List (List ℕ)).getD 1 []) ∧
    reconstruct ([[[1, 0, 0], [0, 1, 0]], [[1, -1, 0], [0, 1, 0]]] : List (List (List ℤ)))
        (([[0, 1], [1, 0]] : List (List ℕ)).getD 0 []) =
      .ok (([[1, 0, 0, 0, 1, 0], [0, 1, 0, 1, -1, 0]] : List (List ℤ)).getD 0 []) := by
  refine ⟨?_, ?_⟩
  · exact ((batch_rowwise_agreement (α := ℤ)).1 _ 6
      [[1, 0, 0, 0, 1, 0], [0, 4, 0, -1, 0, 0]] 6 [[0, 1], [1, 1]]
      (by decide) (by decide)).2 1 (by decide)
  · exact ((batch_rowwise_agreement (α := ℤ)).2 _ [[0, 1], [1, 0]] 2
      [[1, 0, 0, 0, 1, 0], [0, 1, 0, 1, -1, 0]] (by decide)).2 0 (by decide)

theorem foldl_set_length {β : Type*} (f : ℕ → β) :
    ∀ (σ : List ℕ) (arena : List β),
      (σ.foldl (fun a i => a.set i (f i)) arena).length = arena.length := by
  intro σ
  induction σ with
  | nil => intro arena; rfl
  | cons i σ2 ih =>
      intro arena
      rw [List.foldl_cons, ih]
      simp

theorem foldl_set_getD {β : Type*} (f : ℕ → β) (dflt : β) :
    ∀ (σ : List ℕ) (arena : List β) (j : ℕ),
      (σ.foldl (fun a i => a.set i (f i)) arena).getD j dflt =
        if j ∈ σ ∧ j < arena.length then f j else arena.getD j dflt := by
  intro σ
  induction σ with
  | nil =>
      intro arena j
      simp
  | cons i σ2 ih =>
      intro arena j
      rw [List.foldl_cons, ih]
      simp only [List.length_set, List.mem_cons]
      by_cases hji : j = i
      · subst hji
        by_cases hjl : j < arena.length
        · by_cases hmem : j ∈ σ2
          · rw [if_pos ⟨hmem, hjl⟩, if_pos ⟨Or.inl rfl, hjl⟩]
          · rw [if_neg (fun hc => hmem hc.1), if_pos ⟨Or.inl rfl, hjl⟩]
            rw [List.getD_eq_getElem?_getD, List.getElem?_set_self hjl]
            rfl
        · have hset : arena.set j (f j) = arena :=
            List.set_eq_of_length_le (le_of_not_lt hjl)
          rw [hset, if_neg (fun hc => hjl hc.2), if_neg (fun hc => hjl hc.2)]
      · by_cases hmem : j ∈ σ2
        · by_cases hjl : j < arena.length
          · rw [if_pos ⟨hmem, hjl⟩, if_pos ⟨Or.inr hmem, hjl⟩]
          · rw [if_neg (fun hc => hjl hc.2), if_neg (fun hc => hjl hc.2)]
            rw [List.getD_eq_getElem?_getD, List.getD_eq_getElem?_getD,
              List.getElem?_set_ne (fun hc => hji hc.symm)]
        · rw [if_neg (fun hc => hmem hc.1),
            if_neg (fun hc => hc.1.elim (fun he => hji he) (fun hm => hmem hm))]
          rw [List.getD_eq_getElem?_getD, List.getD_eq_getElem?_getD,
            List.getElem?_set_ne (fun hc => hji hc.symm)]

theorem parCollect_eq_map {β : Type*} (f : ℕ → β) (n : ℕ) (dflt : β) (σ : List ℕ)
    (hσ : σ.Perm (List.range n)) : parCollect f n dflt σ = (List.range n).map f := by
  have hlen : (parCollect f n dflt σ).length = n := by
    unfold parCollect
    rw [foldl_set_length]
    simp
  apply List.ext_getElem
  · rw [hlen, List.length_map, List.length_range]
  · intro j hj1 hj2
    have hj : j < n := by rwa [hlen] at hj1
    have hmem : j ∈ σ := hσ.mem_iff.mpr (List.mem_range.mpr hj)
    have hgd := foldl_set_getD f dflt σ (List.replicate n dflt) j
    rw [if_pos ⟨hmem, by simpa using hj⟩] at hgd
    have h3 : (parCollect f n dflt σ).getD j dflt = (parCollect f n dflt σ)[j] :=
      getD_eq_of_lt _ _ j hj1
    have h4 : ((List.range n).map f)[j] = f j := by
      rw [List.getElem_map, List.getElem_range]
    rw [h4, ← h3]
    exact hgd

/-- C10: `train_using` draws the initial centroid sets of all
subquantizers sequentially, in subquantizer-index order, from the single
caller-supplied RNG (`initial_centroids`, a sequential fold threading the
RNG state) before the parallel per-subquantizer fan-out, and the fan-out
fills an index-addressed arena; consequently, for a fixed RNG state and
fixed inputs, the trained model is the same for every parallel execution
schedule: any two schedules that enumerate the subquantizer indices
produce identical results. -/
theorem train_using_schedule_invariant {α : Type*} {ρ : Type*} [LinearOrderedRing α]
    (select : List (List α) → ℕ → ρ → List (List α) × ρ)
    (kmeansRun : List (List α) → List (List α) → α × List (List α))
    (M bits iters att : ℕ) (instances : List (List α)) (ncols : ℕ) (rng : ρ)
    (σ1 σ2 : List ℕ) (h1 : σ1.Perm (List.range M)) (h2 : σ2.Perm (List.range M)) :
    train_using select kmeansRun M bits iters att instances ncols rng σ1 =
      train_using select kmeansRun M bits iters att instances ncols rng σ2 := by
  unfold train_using
  cases hc : check_quantizer_invariants M bits iters att ncols with
  | error e => rfl
  | ok u =>
      rw [parCollect_eq_map _ M _ σ1 h1, parCollect_eq_map _ M _ σ2 h2]

theorem train_using_schedule_invariant_witness :
    train_using (fun (_ : List (List ℤ)) (_ : ℕ) (r : ℕ) => ([[r]], r + 1))
        (fun _ q => ((0 : ℤ), q)) 2 1 1 1 [[1, 2]] 2 0 [1, 0] =
      train_using (fun (_ : List (List ℤ)) (_ : ℕ) (r : ℕ) => ([[r]], r + 1))
        (fun _ q => ((0 : ℤ), q)) 2 1 1 1 [[1, 2]] 2 0 [0, 1] :=
  train_using_schedule_invariant _ _ 2 1 1 1 [[1, 2]] 2 0 [1, 0] [0, 1]
    (by
      have hr : List.range 2 = [0, 1] := rfl
      rw [hr]
      exact List.Perm.swap 0 1 [])
    (by
      have hr : List.range 2 = [0, 1] := rfl
      rw [hr])

end Reductive